import Mathlib

/-!
Verification of the Forensic-Traces-Generator heightfield engine.

The TypeScript sources are shallowly embedded: JS double arithmetic is
modelled by exact rationals (ℚ), 32-bit unsigned wrap-around by explicit
`% 2 ^ 32`, mutable arrays by lists with `List.set`, and the generator
producing progress values by a fuel-indexed recursive function.  Functions
that throw on invalid input are modelled either by `Option` results or by
total functions whose validation conditions become theorem hypotheses;
each definition notes which.  Transcendental quantities (Math.sin, Math.cos,
Math.sqrt) never influence the control-flow facts proved here; where a
transcendental value feeds a computation it is abstracted as an arbitrary
rational parameter, universally quantified in the theorems.
-/

namespace ForensicTraces

/-! ### src/utils/random.ts -/

/-- One update of the linear congruential generator inside
createSeededRandom: state = (1664525 * state + 1013904223) >>> 0. -/
def lcgStep (state : Nat) : Nat := (1664525 * state + 1013904223) % 2 ^ 32

/-- The closure returned by createSeededRandom advances the state and then
returns state / 0x100000000.  The closure is modelled by explicit state
passing: given the current state, produce the output and the next state. -/
def lcgDraw (state : Nat) : ℚ × Nat :=
  let s := lcgStep state
  ((s : ℚ) / 2 ^ 32, s)

/-- createSeededRandom(seed): the initial state is seed >>> 0, i.e. the
integer seed reduced modulo 2^32 (the source validates that seed is a
finite integer; the model therefore takes an integer). -/
def createSeededRandom (seed : ℤ) : Nat := (seed % 2 ^ 32).toNat

/-- The list of the first n outputs of a stream started at the given state. -/
def randSeq (state : Nat) : Nat → List ℚ
  | 0 => []
  | n + 1 => (lcgDraw state).1 :: randSeq (lcgDraw state).2 n

/-- deriveSeed(seed, salt) = (seed XOR (salt * 0x9e3779b9)) >>> 0.
The JS ^ operator reduces both operands modulo 2^32 before the bitwise
XOR.  The double-precision product salt * 0x9e3779b9 is exact whenever its
magnitude stays below 2^53, in particular for all |salt| ≤ 2^21; the model
uses the exact integer product. -/
def deriveSeed (seed salt : ℤ) : Nat :=
  (seed % 2 ^ 32).toNat ^^^ ((salt * 0x9e3779b9) % 2 ^ 32).toNat

/-! ### ElasticPlasticModel (elasticPlastic.js, src/unnamed/part_004 lines 644-678) -/

/-- Result record of computePermanentDepth. -/
structure EPResult where
  permanentDepth : ℚ
  plasticStrainIncrement : ℚ
  elasticStrain : ℚ
  totalStrain : ℚ
deriving DecidableEq, Repr

/-- Material constants held by ElasticPlasticModel after its constructor
(the constructor converts youngModulusGPa to MPa by multiplying by 1000). -/
structure ElasticPlasticModel where
  youngModulusMPa : ℚ
  yieldStrengthMPa : ℚ
  hardeningModulusMPa : ℚ
deriving DecidableEq, Repr

/-- ElasticPlasticModel constructor from a GPa-based material record. -/
def mkElasticPlasticModel (youngModulusGPa yieldStrengthMPa hardeningModulusMPa : ℚ) :
    ElasticPlasticModel :=
  ⟨youngModulusGPa * 1000, yieldStrengthMPa, hardeningModulusMPa⟩

/-- ELASTIC_PLASTIC_MATERIALS.steel passed through the model constructor. -/
def steelEP : ElasticPlasticModel := mkElasticPlasticModel 200 250 4000

/-- ELASTIC_PLASTIC_MATERIALS.gold passed through the model constructor. -/
def goldEP : ElasticPlasticModel := mkElasticPlasticModel 79 70 1200

/-- computePermanentDepth(penetration, characteristicLength, plasticStrain).
The source throws on penetration < 0, characteristicLength ≤ 0 or
plasticStrain < 0; those validation conditions appear as hypotheses of the
theorems instead, and this definition mirrors the non-throwing path. -/
def ElasticPlasticModel.computePermanentDepth (m : ElasticPlasticModel)
    (penetration characteristicLength plasticStrain : ℚ) : EPResult :=
  if penetration = 0 then ⟨0, 0, 0, 0⟩
  else
    let totalStrain := penetration / characteristicLength
    if totalStrain ≤ 0 then ⟨0, 0, 0, totalStrain⟩
    else
      let effectiveYield := m.yieldStrengthMPa + m.hardeningModulusMPa * plasticStrain
      let elasticStrainLimit := effectiveYield / m.youngModulusMPa
      let elasticStrain := min totalStrain elasticStrainLimit
      let plasticStrainIncrement := max 0 (totalStrain - elasticStrain)
      let permanentFraction := plasticStrainIncrement / totalStrain
      ⟨penetration * permanentFraction, plasticStrainIncrement, elasticStrain, totalStrain⟩

/-- The effective yield strain (called elasticStrainLimit in the source):
(yieldStrength + hardeningModulus * priorPlasticStrain) / youngModulus. -/
def ElasticPlasticModel.elasticStrainLimit (m : ElasticPlasticModel) (plasticStrain : ℚ) : ℚ :=
  (m.yieldStrengthMPa + m.hardeningModulusMPa * plasticStrain) / m.youngModulusMPa

/-! ### Theorems for claims C8, C3, C2 -/

/-- C8: two random streams created by createSeededRandom with equal integer
seeds produce identical output sequences of every length N, element for
element.  The closure state is modelled by explicit state passing, so the
stream of outputs is the deterministic unfolding of lcgDraw from the
initial state. -/
theorem createSeededRandom_deterministic (s1 s2 : ℤ) (h : s1 = s2) (n : ℕ) :
    randSeq (createSeededRandom s1) n = randSeq (createSeededRandom s2) n := by
  rw [h]

/-- Witness for C8 at seed 42 and length 3. -/
theorem createSeededRandom_deterministic_witness :
    randSeq (createSeededRandom 42) 3 = randSeq (createSeededRandom 42) 3 :=
  createSeededRandom_deterministic 42 42 rfl 3

/-- C3 counterexample: the salts 0 and 2^32 are distinct integers, yet
deriveSeed maps them to the same value for seed 0 (the product
2^32 * 0x9e3779b9 is exactly representable as a double, so the JS
computation also collides here).  This refutes the claim that distinct
salts always give distinct derived seeds. -/
theorem deriveSeed_collision_cex :
    deriveSeed 0 0 = deriveSeed 0 (2 ^ 32) ∧ (0 : ℤ) ≠ 2 ^ 32 := by
  constructor
  · decide
  · decide

/-- C3 amended: deriveSeed is a pure function of its two inputs (it is a
function of the model by construction), and distinct salts yield distinct
derived seeds provided both salts are bounded by 2^21 in magnitude — the
range on which the double-precision product is exact and the salts cannot
differ by a multiple of 2^32. -/
theorem deriveSeed_injective_on_small_salts (seed s1 s2 : ℤ)
    (h1 : |s1| ≤ 2 ^ 21) (h2 : |s2| ≤ 2 ^ 21) (hne : s1 ≠ s2) :
    deriveSeed seed s1 ≠ deriveSeed seed s2 := by
  intro h
  unfold deriveSeed at h
  have hx : ((s1 * 0x9e3779b9) % 2 ^ 32).toNat = ((s2 * 0x9e3779b9) % 2 ^ 32).toNat :=
    Nat.xor_right_injective h
  have hmodeq : (s1 * 0x9e3779b9) % 2 ^ 32 = (s2 * 0x9e3779b9) % 2 ^ 32 := by
    have e1 : (0 : ℤ) ≤ (s1 * 0x9e3779b9) % 2 ^ 32 := Int.emod_nonneg _ (by positivity)
    have e2 : (0 : ℤ) ≤ (s2 * 0x9e3779b9) % 2 ^ 32 := Int.emod_nonneg _ (by positivity)
    rw [← Int.toNat_of_nonneg e1, ← Int.toNat_of_nonneg e2, hx]
  have hdvd : (2 ^ 32 : ℤ) ∣ (s2 * 0x9e3779b9 - s1 * 0x9e3779b9) :=
    Int.ModEq.dvd hmodeq
  have hdvd' : (2 ^ 32 : ℤ) ∣ 0x9e3779b9 * (s2 - s1) := by
    have : (0x9e3779b9 : ℤ) * (s2 - s1) = s2 * 0x9e3779b9 - s1 * 0x9e3779b9 := by ring
    rw [this]; exact hdvd
  have hcop : Int.gcd (2 ^ 32) 0x9e3779b9 = 1 := by decide
  have hdvd2 : (2 ^ 32 : ℤ) ∣ (s2 - s1) :=
    Int.dvd_of_dvd_mul_right_of_gcd_one hdvd' hcop
  have hne2 : s2 - s1 ≠ 0 := sub_ne_zero.mpr (Ne.symm hne)
  have habs : |s2 - s1| ≤ 2 ^ 22 := by
    calc |s2 - s1| ≤ |s2| + |s1| := abs_sub _ _
    _ ≤ 2 ^ 21 + 2 ^ 21 := add_le_add h2 h1
    _ = 2 ^ 22 := by norm_num
  have hle : (2 ^ 32 : ℤ) ≤ |s2 - s1| :=
    Int.le_of_dvd (abs_pos.mpr hne2) ((dvd_abs _ _).mpr hdvd2)
  have : (2 ^ 32 : ℤ) ≤ 2 ^ 22 := hle.trans habs
  norm_num at this

/-- Witness for C3 amended at seed 7 and salts 1 and 2. -/
theorem deriveSeed_injective_on_small_salts_witness :
    deriveSeed 7 1 ≠ deriveSeed 7 2 :=
  deriveSeed_injective_on_small_salts 7 1 2 (by decide) (by decide) (by decide)

/-- Unfolded form of the permanentDepth component on the non-degenerate
inputs: penetration * ((totalStrain - min totalStrain limit) / totalStrain). -/
theorem computePermanentDepth_formula (m : ElasticPlasticModel) (pen L s : ℚ)
    (hpen : 0 < pen) (hL : 0 < L) :
    (m.computePermanentDepth pen L s).permanentDepth
      = pen * ((pen / L - min (pen / L) (m.elasticStrainLimit s)) / (pen / L)) := by
  have ht : 0 < pen / L := div_pos hpen hL
  unfold ElasticPlasticModel.computePermanentDepth ElasticPlasticModel.elasticStrainLimit
  rw [if_neg hpen.ne', if_neg (not_le.mpr ht)]
  have hmax : max 0 (pen / L - min (pen / L) ((m.yieldStrengthMPa +
      m.hardeningModulusMPa * s) / m.youngModulusMPa))
      = pen / L - min (pen / L) ((m.yieldStrengthMPa +
      m.hardeningModulusMPa * s) / m.youngModulusMPa) :=
    max_eq_right (sub_nonneg.mpr (min_le_left _ _))
  simp only [hmax]

/-- C2 counterexample: with the steel constants, penetration 1/1000 and
characteristicLength 10 stay in the pure elastic regime, so the prior
plastic strains 0 and 1 both give permanentDepth 0 — a strictly larger
prior strain does NOT strictly lower permanentDepth, refuting the claim as
stated (all validity premises of the claim hold at this input). -/
theorem computePermanentDepth_hardening_cex :
    (0 : ℚ) < 1 / 1000 ∧ (0 : ℚ) < 10 ∧ (0 : ℚ) < 1 ∧
    (steelEP.computePermanentDepth (1 / 1000) 10 1).permanentDepth
      = (steelEP.computePermanentDepth (1 / 1000) 10 0).permanentDepth ∧
    ¬ ((steelEP.computePermanentDepth (1 / 1000) 10 1).permanentDepth
      < (steelEP.computePermanentDepth (1 / 1000) 10 0).permanentDepth) := by
  have key : ∀ s : ℚ, 0 ≤ s →
      (steelEP.computePermanentDepth (1 / 1000) 10 s).permanentDepth = 0 := by
    intro s hs
    rw [computePermanentDepth_formula _ _ _ _ (by norm_num) (by norm_num)]
    have hmin : min ((1 / 1000 : ℚ) / 10) (steelEP.elasticStrainLimit s)
        = (1 / 1000 : ℚ) / 10 := by
      apply min_eq_left
      show (1 / 1000 : ℚ) / 10 ≤ (steelEP.yieldStrengthMPa +
        steelEP.hardeningModulusMPa * s) / steelEP.youngModulusMPa
      have h200 : (0 : ℚ) < steelEP.youngModulusMPa := by
        norm_num [steelEP, mkElasticPlasticModel]
      rw [le_div_iff₀ h200]
      simp only [steelEP, mkElasticPlasticModel]
      nlinarith
    rw [hmin, sub_self, zero_div, mul_zero]
  refine ⟨by norm_num, by norm_num, by norm_num, ?_, ?_⟩
  · rw [key 1 (by norm_num), key 0 (by norm_num)]
  · rw [key 1 (by norm_num), key 0 (by norm_num)]
    exact lt_irrefl 0

/-- C2 amended: for valid material constants and fixed penetration > 0 and
characteristicLength > 0, a strictly larger priorPlasticStrain strictly
raises the effective yield strain, makes permanentDepth no larger, and
strictly lowers permanentDepth whenever the smaller strain is already in
the plastic regime (its effective yield strain is below the total strain). -/
theorem computePermanentDepth_hardening (m : ElasticPlasticModel) (pen L s1 s2 : ℚ)
    (hE : 0 < m.youngModulusMPa) (hH : 0 < m.hardeningModulusMPa)
    (hpen : 0 < pen) (hL : 0 < L) (h12 : s1 < s2) :
    m.elasticStrainLimit s1 < m.elasticStrainLimit s2 ∧
    (m.computePermanentDepth pen L s2).permanentDepth
      ≤ (m.computePermanentDepth pen L s1).permanentDepth ∧
    (m.elasticStrainLimit s1 < pen / L →
      (m.computePermanentDepth pen L s2).permanentDepth
        < (m.computePermanentDepth pen L s1).permanentDepth) := by
  have ht : 0 < pen / L := div_pos hpen hL
  have hlim : m.elasticStrainLimit s1 < m.elasticStrainLimit s2 := by
    unfold ElasticPlasticModel.elasticStrainLimit
    have hnum : m.yieldStrengthMPa + m.hardeningModulusMPa * s1
        < m.yieldStrengthMPa + m.hardeningModulusMPa * s2 := by nlinarith
    exact div_lt_div_of_pos_right hnum hE
  rw [computePermanentDepth_formula m pen L s1 hpen hL,
    computePermanentDepth_formula m pen L s2 hpen hL]
  set t := pen / L with htdef
  set a1 := m.elasticStrainLimit s1
  set a2 := m.elasticStrainLimit s2
  have hti : 0 < t⁻¹ := inv_pos.mpr ht
  refine ⟨hlim, ?_, ?_⟩
  · have hmin : min t a1 ≤ min t a2 := min_le_min le_rfl hlim.le
    rw [div_eq_mul_inv, div_eq_mul_inv]
    have hsub : t - min t a2 ≤ t - min t a1 := sub_le_sub_left hmin t
    nlinarith [mul_pos hpen hti]
  · intro hplastic
    have hm1 : min t a1 = a1 := min_eq_right hplastic.le
    rw [div_eq_mul_inv, div_eq_mul_inv, hm1]
    rcases le_or_lt a2 t with hc | hc
    · have hm2 : min t a2 = a2 := min_eq_right hc
      rw [hm2]
      nlinarith [mul_pos hpen hti]
    · have hm2 : min t a2 = t := min_eq_left hc.le
      rw [hm2, sub_self, zero_mul, mul_zero]
      have : 0 < t - a1 := sub_pos.mpr hplastic
      positivity

/-- Witness for C2 amended: steel constants, penetration 1/20,
characteristicLength 10, prior strains 0 < 1; this input is in the plastic
regime so the strict conclusion applies. -/
theorem computePermanentDepth_hardening_witness :
    steelEP.elasticStrainLimit 0 < steelEP.elasticStrainLimit 1 ∧
    (steelEP.computePermanentDepth (1 / 20) 10 1).permanentDepth
      ≤ (steelEP.computePermanentDepth (1 / 20) 10 0).permanentDepth ∧
    (steelEP.elasticStrainLimit 0 < (1 / 20) / 10 →
      (steelEP.computePermanentDepth (1 / 20) 10 1).permanentDepth
        < (steelEP.computePermanentDepth (1 / 20) 10 0).permanentDepth) :=
  computePermanentDepth_hardening steelEP (1 / 20) 10 0 1 (by norm_num [steelEP,
    mkElasticPlasticModel]) (by norm_num [steelEP, mkElasticPlasticModel])
    (by norm_num) (by norm_num) (by norm_num)

/-! ### striations.ts (src/unnamed/part_000) and the tool-kernel profile
(createToolKernel, src/unnamed/part_004 lines 70-237) -/

/-- StriationProfile record: edge width and micro-height samples. -/
structure StriationProfile where
  widthMm : ℚ
  values : List ℚ
deriving DecidableEq, Repr

/-- createStriationProfile: sample i is a raw sine-plus-jitter value scaled
by amplitudeMm * (0.6 + wear).  The raw value combines Math.sin terms and
uniform random draws; each is abstracted here as an arbitrary rational (the
raws list, one entry per sample), while the final scaling
values[i] = raw i * amplitudeMm * wearScale is verbatim from the source.
Input validation (widthMm > 0, ranges) becomes hypotheses where needed. -/
def createStriationProfile (raws : List ℚ) (widthMm amplitudeMm wear : ℚ) :
    StriationProfile :=
  ⟨widthMm, raws.map (fun r => r * amplitudeMm * (3 / 5 + wear))⟩

/-- getStriationOffset(profile, positionMm): clamp the position into
[0, widthMm], then linearly interpolate between the two nearest samples.
List reads are modelled with getD 0; on validated profiles (at least two
samples, widthMm > 0) the indices are in range and the default is unused. -/
def getStriationOffset (profile : StriationProfile) (positionMm : ℚ) : ℚ :=
  let clamped := min profile.widthMm (max 0 positionMm)
  let maxIndex : ℤ := (profile.values.length : ℤ) - 1
  let t : ℚ := clamped / profile.widthMm * (maxIndex : ℚ)
  let idx : ℤ := ⌊t⌋
  let next : ℤ := min maxIndex (idx + 1)
  let frac : ℚ := t - (idx : ℚ)
  let v0 := profile.values.getD idx.toNat 0
  let v1 := profile.values.getD next.toNat 0
  v0 + (v1 - v0) * frac

/-- Per-cell inputs of the createToolKernel fill loop that do not depend on
striationsEnabled: zAfterTilt is the archetype shape value (999 outside the
footprint) with the angle-of-attack tilt term added, micro the two fixed
sine terms, damage the wear value drawn from the base random stream (both
baseRandom() calls happen on every cell regardless of striationsEnabled, so
the base stream stays aligned between the two builds), and pos the
coordinate toolDy + sizeMM / 2 at which the striation profile is sampled.
All are sine/cosine-derived and abstracted as arbitrary rationals. -/
structure KernelCellInput where
  zAfterTilt : ℚ
  micro : ℚ
  damage : ℚ
  pos : ℚ
deriving DecidableEq, Repr

/-- One cell of the kernel fill loop: shape points with z < 500 store
z + microNoise + damage * 0.1 + striationOffset, where the offset is taken
from the profile only when striationsEnabled; all others store the 999
sentinel. -/
def fillKernelCell (profile : StriationProfile) (striationsEnabled : Bool)
    (c : KernelCellInput) : ℚ :=
  let striationOffset :=
    if striationsEnabled then getStriationOffset profile c.pos else 0
  if c.zAfterTilt < 500 then
    c.zAfterTilt + c.micro + c.damage * (1 / 10) + striationOffset
  else 999

/-- The whole kernel fill loop over the row-major list of cell inputs. -/
def fillKernel (profile : StriationProfile) (striationsEnabled : Bool)
    (cells : List KernelCellInput) : List ℚ :=
  cells.map (fillKernelCell profile striationsEnabled)

/-- The normalization step of createToolKernel (part_004 lines 213-225):
scan for the minimum over all cells starting from 1000, and when it is
below 500 subtract it from every cell whose value is below 500. -/
def normalizeKernelProfile (kernel : List ℚ) : List ℚ :=
  let minZ := kernel.foldl min 1000
  if minZ < 500 then kernel.map (fun v => if v < 500 then v - minZ else v)
  else kernel

/-- The profile array returned by createToolKernel, as a function of the
per-cell fill inputs: fill every cell, then normalize.  The subsequent
contact-patch LUT build reads but never modifies the profile. -/
def createToolKernelProfile (profile : StriationProfile) (striationsEnabled : Bool)
    (cells : List KernelCellInput) : List ℚ :=
  normalizeKernelProfile (fillKernel profile striationsEnabled cells)

/-- getD with default 0 on a list of zeros is 0 at every index. -/
theorem getD_zero_of_all_zero (l : List ℚ) (h : ∀ x ∈ l, x = 0) (n : ℕ) :
    l.getD n 0 = 0 := by
  rcases lt_or_ge n l.length with hn | hn
  · rw [List.getD_eq_getElem l 0 hn]
    exact h _ (List.getElem_mem hn)
  · exact List.getD_eq_default l 0 hn

/-- With amplitudeMm = 0 every sample of the striation profile is 0, so the
interpolated offset is 0 at every position. -/
theorem getStriationOffset_amplitude_zero (raws : List ℚ) (widthMm wear pos : ℚ) :
    getStriationOffset (createStriationProfile raws widthMm 0 wear) pos = 0 := by
  have hzero : ∀ x ∈ (createStriationProfile raws widthMm 0 wear).values, x = 0 := by
    intro x hx
    simp only [createStriationProfile, List.mem_map] at hx
    obtain ⟨r, _, hr⟩ := hx
    rw [← hr, mul_zero, zero_mul]
  simp only [getStriationOffset, getD_zero_of_all_zero _ hzero]
  ring

/-- C7: for every tool archetype, size, wear, angle and direction (i.e. for
every list of per-cell fill inputs) and identical base and striation random
draws, building the kernel with striationsEnabled = true and amplitudeMm 0
gives exactly the same profile array, element for element, as building it
with striationsEnabled = false.  The shared cells list encodes that the
base random stream is consumed identically in both builds, which holds in
the source because both baseRandom() calls occur on every cell irrespective
of the flag; the striation stream is consumed only by the profile build,
which happens in both runs before the flag is consulted. -/
theorem createToolKernel_amplitude_zero_same_profile (raws : List ℚ)
    (widthMm wear : ℚ) (cells : List KernelCellInput) :
    createToolKernelProfile (createStriationProfile raws widthMm 0 wear) true cells
      = createToolKernelProfile (createStriationProfile raws widthMm 0 wear) false cells := by
  unfold createToolKernelProfile fillKernel
  congr 1
  apply List.map_congr_left
  intro c _
  unfold fillKernelCell
  rw [getStriationOffset_amplitude_zero]
  simp

/-- foldl of min is bounded by the initial accumulator. -/
theorem foldl_min_le_init (l : List ℚ) (a : ℚ) : l.foldl min a ≤ a := by
  induction l generalizing a with
  | nil => exact le_rfl
  | cons y ys ih => exact le_trans (ih (min a y)) (min_le_left _ _)

/-- foldl of min is bounded by every member of the list. -/
theorem foldl_min_le_mem (l : List ℚ) (a x : ℚ) (hx : x ∈ l) :
    l.foldl min a ≤ x := by
  induction l generalizing a with
  | nil => cases hx
  | cons y ys ih =>
    rcases List.mem_cons.mp hx with h | h
    · subst h
      exact le_trans (foldl_min_le_init ys (min a x)) (min_le_right _ _)
    · exact ih (min a y) h

/-- foldl of min is the initial accumulator or a member of the list. -/
theorem foldl_min_mem_or (l : List ℚ) (a : ℚ) :
    l.foldl min a = a ∨ l.foldl min a ∈ l := by
  induction l generalizing a with
  | nil => exact Or.inl rfl
  | cons y ys ih =>
    rcases ih (min a y) with h | h
    · rcases min_choice a y with hm | hm
      · exact Or.inl (by rw [List.foldl_cons, h, hm])
      · exact Or.inr (by rw [List.foldl_cons, h, hm]; exact List.mem_cons_self _ _)
    · exact Or.inr (List.mem_cons_of_mem _ h)

/-- C5: whenever the filled kernel has at least one valid cell (value below
500; this is exactly the condition under which createToolKernel can
succeed, since otherwise the contact-patch build throws), the minimum over
the non-sentinel cells of the normalized profile is exactly 0.  The source
treats values below 500 as inside the footprint and 999 as the sentinel. -/
theorem createToolKernel_min_nonsentinel_zero (kernel : List ℚ)
    (h : ∃ v ∈ kernel, v < 500) :
    ((normalizeKernelProfile kernel).filter (fun v => v < 500)).min? = some 0 := by
  obtain ⟨v, hv, hvlt⟩ := h
  have hminle : kernel.foldl min 1000 ≤ v := foldl_min_le_mem kernel 1000 v hv
  have hminlt : kernel.foldl min 1000 < 500 := lt_of_le_of_lt hminle hvlt
  have hmem : kernel.foldl min 1000 ∈ kernel := by
    rcases foldl_min_mem_or kernel 1000 with hc | hc
    · rw [hc] at hminlt; norm_num at hminlt
    · exact hc
  haveI : Std.Antisymm fun x1 x2 : ℚ => x1 ≤ x2 :=
    ⟨by intro a b h1 h2; exact le_antisymm h1 h2⟩
  rw [List.min?_eq_some_iff (fun a => le_refl a) min_choice (fun a b c => le_min_iff)]
  set minZ := kernel.foldl min 1000 with hminZ
  have hnorm : normalizeKernelProfile kernel
      = kernel.map (fun v => if v < 500 then v - minZ else v) := by
    unfold normalizeKernelProfile
    rw [if_pos hminlt]
  constructor
  · rw [List.mem_filter]
    constructor
    · rw [hnorm]
      refine List.mem_map.mpr ⟨minZ, hmem, ?_⟩
      rw [if_pos hminlt, sub_self]
    · norm_num
  · intro b hb
    rw [List.mem_filter] at hb
    obtain ⟨hbmem, _⟩ := hb
    rw [hnorm] at hbmem
    obtain ⟨u, hu, hub⟩ := List.mem_map.mp hbmem
    by_cases hu5 : u < 500
    · rw [if_pos hu5] at hub
      rw [← hub]
      exact sub_nonneg.mpr (foldl_min_le_mem kernel 1000 u hu)
    · rw [if_neg hu5] at hub
      rw [← hub]
      linarith [not_lt.mp hu5]

/-- Witness for C5: the filled kernel [1, 3, 999] has valid cells; after
normalization the valid cells are [0, 2] and their minimum is 0. -/
theorem createToolKernel_min_nonsentinel_zero_witness :
    ((normalizeKernelProfile [1, 3, 999]).filter (fun v => v < 500)).min? = some 0 :=
  createToolKernel_min_nonsentinel_zero [1, 3, 999] ⟨1, by norm_num, by norm_num⟩

/-! ### buildContactPatchLUT (src/unnamed/part_004 lines 518-564) -/

/-- One entry of the contact-patch lookup table. -/
structure ContactPatchEntry where
  depth : ℚ
  widthMm : ℚ
  heightMm : ℚ
deriving DecidableEq, Repr

instance : Inhabited ContactPatchEntry := ⟨⟨0, 0, 0⟩⟩

/-- The maximum non-sentinel value of the kernel, found by the scan
starting from 0: if (val < 500 && val > maxProfileDepth) update. -/
def maxProfileDepthOf (kernel : List ℚ) : ℚ :=
  kernel.foldl (fun m v => if v < 500 ∧ m < v then v else m) 0

/-- The bounding-box scan of one LUT sample: over all cells in row-major
order, track (minX, maxX, minY, maxY), initialized to
(width, -1, height, -1), updating on every valid cell at or below the
depth threshold. -/
def patchScan (kernel : List ℚ) (width height : ℕ) (depth : ℚ) : ℤ × ℤ × ℤ × ℤ :=
  ((List.range height).flatMap
      (fun y => (List.range width).map (fun x => (x, y)))).foldl
    (fun st c =>
      let val := kernel.getD (c.2 * width + c.1) 0
      if val < 500 ∧ val ≤ depth then
        (min st.1 (c.1 : ℤ), max st.2.1 (c.1 : ℤ),
          min st.2.2.1 (c.2 : ℤ), max st.2.2.2 (c.2 : ℤ))
      else st)
    ((width : ℤ), -1, (height : ℤ), -1)

/-- Sample i of the LUT: depth (i / 23) * maxProfileDepth, bounding box of
all valid cells at or below that depth, in millimetres.  The throws of the
source (no qualifying cell, non-positive dimensions) are modelled as
none. -/
def mkLutEntry (kernel : List ℚ) (width height : ℕ) (res maxProfileDepth : ℚ)
    (i : ℕ) : Option ContactPatchEntry :=
  let depth := (i : ℚ) / 23 * maxProfileDepth
  let st := patchScan kernel width height depth
  if st.2.1 < 0 ∨ st.2.2.2 < 0 then none
  else
    let widthMm := ((st.2.1 - st.1 + 1 : ℤ) : ℚ) / res
    let heightMm := ((st.2.2.2 - st.2.2.1 + 1 : ℤ) : ℚ) / res
    if 0 < widthMm ∧ 0 < heightMm then some ⟨depth, widthMm, heightMm⟩ else none

/-- Collect the 24 samples in order, failing if any sample fails. -/
def collectEntries (f : ℕ → Option ContactPatchEntry) :
    List ℕ → Option (List ContactPatchEntry)
  | [] => some []
  | i :: rest =>
    match f i, collectEntries f rest with
    | some e, some es => some (e :: es)
    | _, _ => none

/-- buildContactPatchLUT(kernel, width, height): compute maxProfileDepth,
fail when it is not positive (the source throws), then build the 24
samples.  Returns the LUT together with maxProfileDepth. -/
def buildContactPatchLUT (kernel : List ℚ) (width height : ℕ) (res : ℚ) :
    Option (List ContactPatchEntry × ℚ) :=
  let maxD := maxProfileDepthOf kernel
  if 0 < maxD then
    match collectEntries (mkLutEntry kernel width height res maxD) (List.range 24) with
    | some lut => some (lut, maxD)
    | none => none
  else none

/-- A successful collectEntries run has one entry per index, and each entry
comes from a successful sample at its index. -/
theorem collectEntries_spec (f : ℕ → Option ContactPatchEntry) (l : List ℕ)
    (es : List ContactPatchEntry) (h : collectEntries f l = some es) :
    es.length = l.length ∧
    ∀ k, k < l.length → f (l.getD k 0) = some (es.getD k default) := by
  induction l generalizing es with
  | nil =>
    simp only [collectEntries, Option.some.injEq] at h
    subst h
    exact ⟨rfl, fun k hk => absurd hk (Nat.not_lt_zero k)⟩
  | cons i rest ih =>
    cases hfi : f i with
    | none => rw [collectEntries, hfi] at h; exact absurd h (by simp)
    | some e =>
      cases hrest : collectEntries f rest with
      | none => rw [collectEntries, hfi, hrest] at h; exact absurd h (by simp)
      | some es0 =>
        rw [collectEntries, hfi, hrest, Option.some.injEq] at h
        subst h
        obtain ⟨hlen, hidx⟩ := ih es0 hrest
        refine ⟨by simp [hlen], ?_⟩
        intro k hk
        cases k with
        | zero => simpa using hfi
        | succ k0 =>
          have hk0 : k0 < rest.length := by simpa using hk
          simpa using hidx k0 hk0

/-- A successful sample has the stated depth and positive dimensions. -/
theorem mkLutEntry_spec (kernel : List ℚ) (width height : ℕ)
    (res maxProfileDepth : ℚ) (i : ℕ) (e : ContactPatchEntry)
    (h : mkLutEntry kernel width height res maxProfileDepth i = some e) :
    e.depth = (i : ℚ) / 23 * maxProfileDepth ∧ 0 < e.widthMm ∧ 0 < e.heightMm := by
  simp only [mkLutEntry] at h
  split at h
  · exact absurd h (by simp)
  · split at h
    · rw [Option.some.injEq] at h
      subst h
      refine ⟨rfl, ?_⟩
      assumption
    · exact absurd h (by simp)

/-- C6: whenever buildContactPatchLUT succeeds (which is exactly when
createToolKernel returns a ToolKernel), the resulting table has 24 entries
whose depths strictly increase from 0 at index 0 to maxProfileDepth at
index 23, and every entry has positive widthMm and heightMm. -/
theorem buildContactPatchLUT_monotone (kernel : List ℚ) (width height : ℕ)
    (res : ℚ) (lut : List ContactPatchEntry) (maxD : ℚ)
    (h : buildContactPatchLUT kernel width height res = some (lut, maxD)) :
    lut.length = 24 ∧
    (lut.getD 0 default).depth = 0 ∧
    (lut.getD 23 default).depth = maxD ∧
    (∀ i, i + 1 < lut.length →
      (lut.getD i default).depth < (lut.getD (i + 1) default).depth) ∧
    (∀ e ∈ lut, 0 < e.widthMm ∧ 0 < e.heightMm) := by
  simp only [buildContactPatchLUT] at h
  split at h
  case isFalse => exact absurd h (by simp)
  case isTrue hpos =>
    set maxD0 := maxProfileDepthOf kernel with hmd
    cases hc : collectEntries (mkLutEntry kernel width height res maxD0) (List.range 24) with
    | none => rw [hc] at h; exact absurd h (by simp)
    | some lut0 =>
      rw [hc, Option.some.injEq, Prod.mk.injEq] at h
      obtain ⟨hl, hm⟩ := h
      subst hl
      subst hm
      obtain ⟨hlen, hidx⟩ := collectEntries_spec _ _ _ hc
      rw [List.length_range] at hlen
      have hrange : ∀ k, k < 24 → (List.range 24).getD k 0 = k := by
        intro k hk
        rw [List.getD_eq_getElem _ 0 (by simpa using hk), List.getElem_range]
      have hdepth : ∀ k, k < 24 →
          (lut0.getD k default).depth = (k : ℚ) / 23 * maxD0 ∧
          0 < (lut0.getD k default).widthMm ∧ 0 < (lut0.getD k default).heightMm := by
        intro k hk
        have := hidx k (by simpa using hk)
        rw [hrange k hk] at this
        exact mkLutEntry_spec _ _ _ _ _ _ _ this
      refine ⟨hlen, ?_, ?_, ?_, ?_⟩
      · rw [(hdepth 0 (by norm_num)).1]
        norm_num
      · rw [(hdepth 23 (by norm_num)).1]
        norm_num
      · intro i hi
        rw [hlen] at hi
        rw [(hdepth i (by omega)).1, (hdepth (i + 1) hi).1]
        have hcast : ((i + 1 : ℕ) : ℚ) = (i : ℚ) + 1 := by push_cast; ring
        rw [hcast]
        apply mul_lt_mul_of_pos_right _ hpos
        apply div_lt_div_of_pos_right _ (by norm_num)
        linarith
      · intro e he
        obtain ⟨k, hk, hke⟩ := List.mem_iff_getElem.mp he
        have hk24 : k < 24 := by rw [hlen] at hk; exact hk
        have : lut0.getD k default = e := by
          rw [List.getD_eq_getElem _ default hk, hke]
        rw [← this]
        exact (hdepth k hk24).2

/-- collectEntries succeeds when every sample succeeds. -/
theorem collectEntries_isSome (f : ℕ → Option ContactPatchEntry) (l : List ℕ)
    (h : ∀ i ∈ l, (f i).isSome) : ∃ es, collectEntries f l = some es := by
  induction l with
  | nil => exact ⟨[], rfl⟩
  | cons i rest ih =>
    obtain ⟨e, he⟩ := Option.isSome_iff_exists.mp (h i (List.mem_cons_self _ _))
    obtain ⟨es, hes⟩ := ih (fun j hj => h j (List.mem_cons_of_mem _ hj))
    exact ⟨e :: es, by rw [collectEntries, he, hes]⟩

/-- Witness for C6: the 1x2 kernel [0, 23] at resolution 1 builds a
24-entry LUT with maxProfileDepth 23. -/
theorem buildContactPatchLUT_monotone_witness :
    ∃ lut maxD, buildContactPatchLUT [0, 23] 2 1 1 = some (lut, maxD) ∧
      (lut.length = 24 ∧
      (lut.getD 0 default).depth = 0 ∧
      (lut.getD 23 default).depth = maxD ∧
      (∀ i, i + 1 < lut.length →
        (lut.getD i default).depth < (lut.getD (i + 1) default).depth) ∧
      (∀ e ∈ lut, 0 < e.widthMm ∧ 0 < e.heightMm)) := by
  have hmax : maxProfileDepthOf [0, 23] = 23 := by
    norm_num [maxProfileDepthOf, List.foldl]
  have hsome : ∀ i ∈ List.range 24, (mkLutEntry [0, 23] 2 1 1 23 i).isSome := by
    intro i hi
    rw [List.mem_range] at hi
    have hscan : patchScan [0, 23] 2 1 ((i : ℚ) / 23 * 23)
        = (0, if 23 ≤ i then 1 else 0, 0, 0) := by
      have h0 : ((0 : ℚ)) ≤ (i : ℚ) / 23 * 23 := by positivity
      norm_num [patchScan, List.range_succ, h0]
      by_cases h23 : 23 ≤ i
      · simp [h23]
      · simp [h23]
    simp only [mkLutEntry, hscan]
    by_cases h23 : 23 ≤ i
    · simp only [h23, if_true]
      norm_num
    · simp only [h23, if_false]
      norm_num
  obtain ⟨lut, hlut⟩ := collectEntries_isSome _ _ hsome
  have hbuild : buildContactPatchLUT [0, 23] 2 1 1 = some (lut, 23) := by
    rw [buildContactPatchLUT, hmax, if_pos (by norm_num : (0 : ℚ) < 23), hlut]
  exact ⟨lut, 23, hbuild,
    buildContactPatchLUT_monotone [0, 23] 2 1 1 lut 23 hbuild⟩

/-! ### simulateCutGenerator progress stream (src/unnamed/part_004 lines
243-321).  The yielded progress values depend only on the accumulated
distance and the step counter: each iteration advances
currentDist += velocity * timeStep (velocity = speed is never reassigned),
yields (currentDist / 40) * 90 when stepsTaken has become a multiple of
500, and the generator yields 100 once currentDist has reached
totalDist = 40.  The grid-mutating calls inside the loop (applyKernel,
generateCrack) do not influence these values and are modelled separately.
timeStep 0.0005 is taken as the exact rational 1/2000 (the binary double
differs by under 2^-55, far from every comparison boundary used below).
The while loop is modelled with explicit fuel, and simulateCutProgress
supplies enough fuel for the loop to run to completion when speed > 0. -/

/-- The generator loop: fuel, currentDist, stepsTaken.  Mirrors the source
order: advance distance, increment the counter, yield on multiples of 500,
and yield 100 after the loop. -/
def simulateCutYields (incr : ℚ) : ℕ → ℚ → ℕ → List ℚ
  | 0, _, _ => []
  | fuel + 1, dist, steps =>
    if dist < 40 then
      if (steps + 1) % 500 = 0 then
        ((dist + incr) / 40) * 90 :: simulateCutYields incr fuel (dist + incr) (steps + 1)
      else simulateCutYields incr fuel (dist + incr) (steps + 1)
    else [100]

/-- Fuel that strictly dominates the iteration count of the loop. -/
def cutFuel (incr : ℚ) : ℕ := (⌈(40 : ℚ) / incr⌉).toNat + 1

/-- The full progress sequence of simulateCut at the given speed (mm/s). -/
def simulateCutProgress (speed : ℚ) : List ℚ :=
  simulateCutYields (speed * (1 / 2000)) (cutFuel (speed * (1 / 2000))) 0 0

/-- Loop invariant: with positive increment, nonnegative distance and
sufficient fuel, the yield list ends in 100 and every earlier element is
positive and below 90 + (9/4) * incr. -/
theorem simulateCutYields_spec (incr : ℚ) (hincr : 0 < incr) :
    ∀ fuel : ℕ, ∀ dist : ℚ, ∀ steps : ℕ, 0 ≤ dist →
      (⌈(40 - dist) / incr⌉).toNat + 1 ≤ fuel →
      (simulateCutYields incr fuel dist steps).getLast? = some 100 ∧
      ∀ x ∈ (simulateCutYields incr fuel dist steps).dropLast,
        0 < x ∧ x < 90 + (9 / 4) * incr := by
  intro fuel
  induction fuel with
  | zero => intro dist steps _ hf; omega
  | succ fuel ih =>
    intro dist steps hdist hf
    by_cases hd : dist < 40
    · have hpos : (0 : ℚ) < (40 - dist) / incr := div_pos (by linarith) hincr
      have hceil1 : 1 ≤ ⌈(40 - dist) / incr⌉ := Int.ceil_pos.mpr hpos
      have harg : (40 - (dist + incr)) / incr = (40 - dist) / incr - 1 := by
        field_simp
        ring
      have hf2 : (⌈(40 - (dist + incr)) / incr⌉).toNat + 1 ≤ fuel := by
        rw [harg, Int.ceil_sub_one]
        omega
      have hrec := ih (dist + incr) (steps + 1) (by linarith) hf2
      have hxpos : 0 < ((dist + incr) / 40) * 90 := by positivity
      have hxlt : ((dist + incr) / 40) * 90 < 90 + (9 / 4) * incr := by
        have he : ((dist + incr) / 40) * 90 = (dist + incr) * (9 / 4) := by ring
        have h2 : (dist + incr) * (9 / 4) < (40 + incr) * (9 / 4) := by
          apply mul_lt_mul_of_pos_right _ (by norm_num)
          linarith
        rw [he]
        calc (dist + incr) * (9 / 4) < (40 + incr) * (9 / 4) := h2
        _ = 90 + (9 / 4) * incr := by ring
      by_cases hm : (steps + 1) % 500 = 0
      · rw [simulateCutYields, if_pos hd, if_pos hm]
        cases hr : simulateCutYields incr fuel (dist + incr) (steps + 1) with
        | nil => rw [hr] at hrec; simp at hrec
        | cons b t =>
          rw [hr] at hrec
          obtain ⟨hlast, hdrop⟩ := hrec
          constructor
          · rw [List.getLast?_cons_cons]
            exact hlast
          · rw [List.dropLast_cons_of_ne_nil (by simp)]
            intro x hx
            rcases List.mem_cons.mp hx with hxe | hxm
            · subst hxe; exact ⟨hxpos, hxlt⟩
            · exact hdrop x hxm
      · rw [simulateCutYields, if_pos hd, if_neg hm]
        exact hrec
    · rw [simulateCutYields, if_neg hd]
      exact ⟨rfl, by simp⟩

/-- C4 amended: for every speed > 0 the progress sequence is finite (it is
a list), ends in exactly 100, and every element yielded before the last is
strictly positive and below 90 + (9/4) * speed * timeStep.  The original
bound (0, 90] holds for every intermediate yield except possibly the final
one, but can be exceeded by the final intermediate yield when the 500th,
1000th, ... step overshoots the 40 mm path (see the counterexample). -/
theorem simulateCut_progress_spec (speed : ℚ) (hspeed : 0 < speed) :
    (simulateCutProgress speed).getLast? = some 100 ∧
    ∀ x ∈ (simulateCutProgress speed).dropLast,
      0 < x ∧ x < 90 + (9 / 4) * (speed * (1 / 2000)) := by
  have hincr : 0 < speed * (1 / 2000) := by positivity
  have hfuel : (⌈(40 - 0 : ℚ) / (speed * (1 / 2000))⌉).toNat + 1
      ≤ cutFuel (speed * (1 / 2000)) := by
    unfold cutFuel
    norm_num
  exact simulateCutYields_spec _ hincr _ 0 0 le_rfl hfuel

/-- Witness for C4 amended at speed 10 mm/s. -/
theorem simulateCut_progress_spec_witness :
    (simulateCutProgress 10).getLast? = some 100 ∧
    ∀ x ∈ (simulateCutProgress 10).dropLast,
      0 < x ∧ x < 90 + (9 / 4) * (10 * (1 / 2000)) :=
  simulateCut_progress_spec 10 (by norm_num)

/-- Tail run of the loop towards the 500th step, for an increment that
first reaches 40 mm exactly at step 500: from step 499 - k the loop runs
without yielding until step 500, yields (500 * incr / 40) * 90 there, and
then terminates with 100. -/
theorem simulateCutYields_crossing (incr : ℚ) (hpos : 0 < incr)
    (hlow : 499 * incr < 40) (hhigh : 40 ≤ 500 * incr) :
    ∀ k : ℕ, k ≤ 499 → ∀ fuel : ℕ, k + 2 ≤ fuel →
      simulateCutYields incr fuel (((499 - k : ℕ) : ℚ) * incr) (499 - k)
        = [(500 * incr / 40) * 90, 100] := by
  intro k
  induction k with
  | zero =>
    intro _ fuel hfuel
    obtain ⟨f1, rfl⟩ : ∃ f1, fuel = f1 + 1 := ⟨fuel - 1, by omega⟩
    have hd : ((499 - 0 : ℕ) : ℚ) * incr < 40 := by norm_num [hlow]
    rw [simulateCutYields, if_pos hd]
    have hm : ((499 - 0) + 1) % 500 = 0 := by norm_num
    rw [if_pos hm]
    have hdist1 : ((499 - 0 : ℕ) : ℚ) * incr + incr = 500 * incr := by
      norm_num; ring
    rw [hdist1]
    obtain ⟨f2, rfl⟩ : ∃ f2, f1 = f2 + 1 := ⟨f1 - 1, by omega⟩
    rw [simulateCutYields, if_neg (by linarith)]
  | succ k ih =>
    intro hk fuel hfuel
    obtain ⟨f1, rfl⟩ : ∃ f1, fuel = f1 + 1 := ⟨fuel - 1, by omega⟩
    have hle : ((499 - (k + 1) : ℕ) : ℚ) ≤ 499 := by
      have : (499 - (k + 1) : ℕ) ≤ 499 := by omega
      exact_mod_cast this
    have hd : ((499 - (k + 1) : ℕ) : ℚ) * incr < 40 := by
      have h1 : ((499 - (k + 1) : ℕ) : ℚ) * incr ≤ 499 * incr :=
        mul_le_mul_of_nonneg_right hle hpos.le
      linarith
    rw [simulateCutYields, if_pos hd]
    have hm : ¬ (((499 - (k + 1)) + 1) % 500 = 0) := by omega
    rw [if_neg hm]
    have hsteps : (499 - (k + 1)) + 1 = 499 - k := by omega
    have hdist1 : ((499 - (k + 1) : ℕ) : ℚ) * incr + incr
        = ((499 - k : ℕ) : ℚ) * incr := by
      have h1 : (499 - (k + 1) : ℕ) + 1 = 499 - k := by omega
      have h2 : ((499 - k : ℕ) : ℚ) = ((499 - (k + 1) : ℕ) : ℚ) + 1 := by
        rw [← h1]; push_cast; ring
      rw [h2]; ring
    rw [hsteps, hdist1]
    exact ih (by omega) f1 (by omega)

/-- C4 counterexample: at the valid speed 160.1 mm/s (increment
1601/20000 mm per 0.5 ms step) the path first reaches 40 mm exactly at
step 500, so the single intermediate yield is
(500 * incr / 40) * 90 = 14409/160 = 90.05625 > 90, outside the claimed
interval (0, 90]. -/
theorem simulateCut_progress_cex :
    (0 : ℚ) < 1601 / 10 ∧
    simulateCutProgress (1601 / 10) = [14409 / 160, 100] ∧
    (14409 / 160 : ℚ) ∈ (simulateCutProgress (1601 / 10)).dropLast ∧
    (90 : ℚ) < 14409 / 160 := by
  have hincr : (1601 / 10 : ℚ) * (1 / 2000) = 1601 / 20000 := by norm_num
  have hfuel : cutFuel (1601 / 20000) = 501 := by
    unfold cutFuel
    have h1 : ((40 : ℚ) / (1601 / 20000)) = 800000 / 1601 := by norm_num
    have h2 : (⌈(800000 : ℚ) / 1601⌉ : ℤ) = 500 := by
      rw [Int.ceil_eq_iff]
      constructor <;> norm_num
    rw [h1, h2]
    rfl
  have hrun := simulateCutYields_crossing (1601 / 20000) (by norm_num)
    (by norm_num) (by norm_num) 499 (by norm_num) 501 (by norm_num)
  have hlist : simulateCutProgress (1601 / 10) = [14409 / 160, 100] := by
    unfold simulateCutProgress
    rw [hincr, hfuel]
    have h0 : ((499 - 499 : ℕ) : ℚ) * (1601 / 20000) = 0 := by norm_num
    have h0s : (499 - 499 : ℕ) = 0 := by norm_num
    rw [h0, h0s] at hrun
    rw [hrun]
    norm_num
  refine ⟨by norm_num, hlist, ?_, by norm_num⟩
  rw [hlist]
  simp

/-! ### The engine state and the cut-stepping operations
(src/unnamed/part_004).  The Float64Array height field and Float32Array
strain field become lists of rationals; the mutable this.random closure
becomes an explicit rng state threaded through every operation.  The two
Math.sin terms of generateBaseTopography and the cos/sin/sqrt-derived unit
directions of generateCrack are abstracted as rational parameters, since no
claim depends on their values. -/

/-- Engine state: surface dimensions and resolution, height data, the
plastic-strain field, the LCG state of this.random, and the stored seed. -/
structure ForensicPhysicsEngine where
  width : ℕ
  height : ℕ
  resolution : ℚ
  data : List ℚ
  plasticStrain : List ℚ
  rng : ℕ
  randomSeed : ℤ
deriving DecidableEq, Repr

/-- The fields of a built ToolKernel used by the cut loop. -/
structure ToolKernel where
  profile : List ℚ
  width : ℕ
  height : ℕ
  centerX : ℕ
  centerY : ℕ
  sharpness : ℚ
deriving DecidableEq, Repr

/-- One entry of the MATERIALS table. -/
structure Material where
  hardness : ℚ
  flow : ℚ
  brittleness : ℚ
deriving DecidableEq, Repr

/-- MATERIALS.gold = hardness 0.3, flow 0.95, brittleness 0.0. -/
def goldMat : Material := ⟨3 / 10, 19 / 20, 0⟩

/-- The value returned by one this.random() call from the given state:
the advanced state divided by 2^32. -/
def lcgValue (state : Nat) : ℚ := (lcgStep state : ℚ) / 2 ^ 32

/-- The engine after one this.random() call: only the rng state advances. -/
def rngAdvance (E : ForensicPhysicsEngine) : ForensicPhysicsEngine :=
  { E with rng := lcgStep E.rng }

/-- One call of this.random(): advance the LCG state, return the value. -/
def randomDraw (E : ForensicPhysicsEngine) : ℚ × ForensicPhysicsEngine :=
  (lcgValue E.rng, rngAdvance E)

/-- Row-major index y * width + x of a grid cell (used only in bounds). -/
def gridIdx (width : ℕ) (x y : ℤ) : ℕ := (y * width + x).toNat

/-- safeAdd(x, y, val): add val to the cell when it is inside the grid and
its height is above -0.5 (the guard against piling onto the groove). -/
def safeAdd (E : ForensicPhysicsEngine) (x y : ℤ) (val : ℚ) :
    ForensicPhysicsEngine :=
  if 0 ≤ x ∧ x < (E.width : ℤ) ∧ 0 ≤ y ∧ y < (E.height : ℤ) then
    let idx := gridIdx E.width x y
    if -(1 / 2) < E.data.getD idx 0 then
      { E with data := E.data.set idx (E.data.getD idx 0 + val) }
    else E
  else E

/-- The cells visited by addPileUpRing's two loops, in source order: the
first loop walks i = 0..w-1 touching (x+i, y) and (x+i, y+h-1); the second
walks j = y+1..y+h-2 touching (x, j) and (x+w-1, j). -/
def ringCells (x y : ℤ) (w h : ℕ) : List (ℤ × ℤ) :=
  ((List.range w).flatMap (fun i => [(x + i, y), (x + i, y + h - 1)])) ++
    ((List.range (h - 2)).flatMap (fun j => [(x, y + 1 + j), (x + w - 1, y + 1 + j)]))

/-- addPileUpRing(x, y, w, h, amount): safeAdd the amount on every ring
cell. -/
def addPileUpRing (E : ForensicPhysicsEngine) (x y : ℤ) (w h : ℕ)
    (amount : ℚ) : ForensicPhysicsEngine :=
  (ringCells x y w h).foldl (fun e c => safeAdd e c.1 c.2 amount) E

/-- The normalization denominator of the pile-up distribution: the sum over
rings r = 1..4 of (approximate ring pixel count 2(W+H) + 8r) * (1/r). -/
def totalWeightedArea (kw kh : ℕ) : ℚ :=
  ((List.range 4).map
    (fun i => ((2 * (kw + kh) + 8 * (i + 1) : ℕ) : ℚ) * (1 / ((i : ℚ) + 1)))).sum

/-- Pass 2 of applyKernel: when flowVolume > 0, distribute it over the four
rings, adding flowVolume * (1/r) / totalWeightedArea to each ring cell. -/
def pileUpPhase (E : ForensicPhysicsEngine) (startX startY : ℤ) (kw kh : ℕ)
    (flowVolume : ℚ) : ForensicPhysicsEngine :=
  if 0 < flowVolume then
    (List.range 4).foldl
      (fun e i =>
        addPileUpRing e (startX - ((i + 1 : ℕ) : ℤ)) (startY - ((i + 1 : ℕ) : ℤ))
          (kw + 2 * (i + 1)) (kh + 2 * (i + 1))
          (flowVolume * (1 / ((i : ℚ) + 1)) / totalWeightedArea kw kh))
      E
  else E

/-- The kernel cells visited by the carve loop, row-major (ky outer). -/
def kernelPositions (kernel : ToolKernel) : List (ℕ × ℕ) :=
  (List.range kernel.height).flatMap
    (fun ky => (List.range kernel.width).map (fun kx => (ky, kx)))

/-- One cell of pass 1 of applyKernel: when the kernel cell overlaps the
grid and the tool height cz + profile value is below the current height,
run the elastic-plastic model and apply permanentDepth to the height (when
positive), accumulate it into displacedVolume, and add
plasticStrainIncrement (when positive) to the strain field.  The local
maxDepth of the source is tracked but never read afterwards and is
omitted. -/
def carveCell (m : ElasticPlasticModel) (charLen cz : ℚ) (kernel : ToolKernel)
    (startX startY : ℤ) (st : ForensicPhysicsEngine × ℚ) (p : ℕ × ℕ) :
    ForensicPhysicsEngine × ℚ :=
  let E := st.1
  let mapX := startX + p.2
  let mapY := startY + p.1
  if 0 ≤ mapX ∧ mapX < (E.width : ℤ) ∧ 0 ≤ mapY ∧ mapY < (E.height : ℤ) then
    let idx := gridIdx E.width mapX mapY
    let toolHeight := cz + kernel.profile.getD (p.1 * kernel.width + p.2) 0
    let currentHeight := E.data.getD idx 0
    if toolHeight < currentHeight then
      let pen := currentHeight - toolHeight
      let cps := E.plasticStrain.getD idx 0
      let result := m.computePermanentDepth pen charLen cps
      let E1 :=
        if 0 < result.permanentDepth then
          { E with data := E.data.set idx (currentHeight - result.permanentDepth) }
        else E
      let dv1 := if 0 < result.permanentDepth then st.2 + result.permanentDepth else st.2
      let E2 :=
        if 0 < result.plasticStrainIncrement then
          { E1 with plasticStrain :=
              E1.plasticStrain.set idx (cps + result.plasticStrainIncrement) }
        else E1
      (E2, dv1)
    else st
  else st

/-- Pass 1 of applyKernel over all kernel cells, accumulating
displacedVolume from 0. -/
def carvePass (E : ForensicPhysicsEngine) (m : ElasticPlasticModel)
    (charLen cz : ℚ) (kernel : ToolKernel) (startX startY : ℤ) :
    ForensicPhysicsEngine × ℚ :=
  (kernelPositions kernel).foldl (carveCell m charLen cz kernel startX startY) (E, 0)

/-- Overwrite one height cell (the common shape of every grid write). -/
def setCell (e : ForensicPhysicsEngine) (idx : ℕ) (v : ℚ) :
    ForensicPhysicsEngine :=
  { e with data := e.data.set idx v }

/-- One cell of roughenCut: when the cell overlaps the grid and its height
is below -0.01, subtract random() * amount (the draw happens only then). -/
def roughenStep (startX startY : ℤ) (amount : ℚ) (e : ForensicPhysicsEngine)
    (p : ℕ × ℕ) : ForensicPhysicsEngine :=
  let mapX := startX + p.2
  let mapY := startY + p.1
  if 0 ≤ mapX ∧ mapX < (e.width : ℤ) ∧ 0 ≤ mapY ∧ mapY < (e.height : ℤ) then
    let idx := gridIdx e.width mapX mapY
    if e.data.getD idx 0 < -(1 / 100) then
      setCell (rngAdvance e) idx (e.data.getD idx 0 - lcgValue e.rng * amount)
    else e
  else e

/-- roughenCut over all overlapped cells, row-major. -/
def roughenCut (E0 : ForensicPhysicsEngine) (startX startY : ℤ) (w h : ℕ)
    (amount : ℚ) : ForensicPhysicsEngine :=
  ((List.range h).flatMap (fun ky => (List.range w).map (fun kx => (ky, kx)))).foldl
    (roughenStep startX startY amount) E0

/-- applyKernel(cx, cy, cz, kernel, mat, elasticPlastic, charLen): carve,
then pile up the flowed fraction of the displaced volume, then roughen the
cut when the chip ratio exceeds 0.5. -/
def applyKernel (E : ForensicPhysicsEngine) (cx cy cz : ℚ) (kernel : ToolKernel)
    (mat : Material) (m : ElasticPlasticModel) (charLen : ℚ) :
    ForensicPhysicsEngine :=
  let gx : ℤ := ⌊cx * E.resolution⌋
  let gy : ℤ := ⌊cy * E.resolution⌋
  let startX := gx - kernel.centerX
  let startY := gy - kernel.centerY
  let c := carvePass E m charLen cz kernel startX startY
  if 0 < c.2 then
    let chipRatio := kernel.sharpness * mat.brittleness
    let flowVolume := c.2 * mat.flow * (1 - chipRatio)
    let E2 := pileUpPhase c.1 startX startY kernel.width kernel.height flowVolume
    if 1 / 2 < chipRatio then
      roughenCut E2 startX startY kernel.width kernel.height (chipRatio * (1 / 20))
    else E2
  else c.1

/-- generateCrack: the side and angular-spread random draws occur first;
the resulting sqrt-normalized unit direction (cDx, cDy) involves cos, sin
and sqrt and is taken as a parameter.  The walk then advances one grid cell
at a time with random jitter, subtracting a depth tapering linearly from
0.2 mm to 0 from every visited in-bounds cell. -/
def crackStep (res cDx cDy : ℚ) (steps : ℕ) (st : ℚ × ℚ × ForensicPhysicsEngine)
    (i : ℕ) : ℚ × ℚ × ForensicPhysicsEngine :=
  let e := st.2.2
  let x1 := st.1 + cDx * (1 / res)
  let y1 := st.2.1 + cDy * (1 / res)
  let x2 := x1 + (lcgValue e.rng - 1 / 2) * (1 / 20)
  let e1 := rngAdvance e
  let y2 := y1 + (lcgValue e1.rng - 1 / 2) * (1 / 20)
  let e2 := rngAdvance e1
  let gx : ℤ := ⌊x2 * res⌋
  let gy : ℤ := ⌊y2 * res⌋
  if 0 ≤ gx ∧ gx < (e2.width : ℤ) ∧ 0 ≤ gy ∧ gy < (e2.height : ℤ) then
    let idx := gridIdx e2.width gx gy
    let depth := (1 - (i : ℚ) / (steps : ℚ)) * (1 / 5)
    (x2, y2, setCell e2 idx (e2.data.getD idx 0 - depth))
  else (x2, y2, e2)

def generateCrack (E0 : ForensicPhysicsEngine) (cx cy cDx cDy energy brittleness : ℚ) :
    ForensicPhysicsEngine :=
  let E1 := rngAdvance (rngAdvance E0)
  let steps : ℕ := (⌊energy * 5 * brittleness * E0.resolution⌋).toNat
  ((List.range steps).foldl (crackStep E0.resolution cDx cDy steps) (cx, cy, E1)).2.2

/-- generateBaseTopography: write every cell of the height field in
row-major order; the two fixed Math.sin terms are abstracted by the noise
parameter, and one random() draw per cell contributes (r - 0.5) * 0.002. -/
def topographyStep (noise : ℕ → ℕ → ℚ) (e : ForensicPhysicsEngine)
    (p : ℕ × ℕ) : ForensicPhysicsEngine :=
  setCell (rngAdvance e) (p.1 * e.width + p.2)
    (noise p.2 p.1 + (lcgValue e.rng - 1 / 2) * (1 / 500))

def generateBaseTopography (noise : ℕ → ℕ → ℚ) (E0 : ForensicPhysicsEngine) :
    ForensicPhysicsEngine :=
  ((List.range E0.height).flatMap (fun y => (List.range E0.width).map (fun x => (y, x)))).foldl
    (topographyStep noise) E0

/-- resetRandom(): restore the LCG state from the stored seed. -/
def resetRandom (E : ForensicPhysicsEngine) : ForensicPhysicsEngine :=
  { E with rng := createSeededRandom E.randomSeed }

/-- reset(): resetRandom, regenerate the base topography, clear the strain
field to all zeros (fill(0) keeps the length). -/
def ForensicPhysicsEngine.reset (noise : ℕ → ℕ → ℚ) (E : ForensicPhysicsEngine) :
    ForensicPhysicsEngine :=
  let E1 := generateBaseTopography noise (resetRandom E)
  { E1 with plasticStrain := List.replicate E1.plasticStrain.length 0 }

/-- The constructor: w = floor(widthMM * resolution),
h = floor(heightMM * resolution), zero-filled height and strain arrays of
length w * h, rng seeded from the integer seed, then the base topography is
generated. -/
def mkForensicPhysicsEngine (noise : ℕ → ℕ → ℚ) (widthMM heightMM resolution : ℚ)
    (seed : ℤ) : ForensicPhysicsEngine :=
  let w := (⌊widthMM * resolution⌋).toNat
  let h := (⌊heightMM * resolution⌋).toNat
  generateBaseTopography noise
    { width := w, height := h, resolution := resolution,
      data := List.replicate (w * h) 0,
      plasticStrain := List.replicate (w * h) 0,
      rng := createSeededRandom seed, randomSeed := seed }

/-- One iteration of the simulateCutGenerator loop as it affects the grid:
toolZ = -penetration + vibration (the sin-valued vibration is a parameter),
applyKernel at the current position, then for brittle materials possibly
generateCrack.  The characteristic length is looked up from the kernel LUT
by pure reads and is passed in; (cDx, cDy) abstracts the trigonometric drag
direction. -/
def simulateStep (E : ForensicPhysicsEngine) (cx cy vibration penetration : ℚ)
    (kernel : ToolKernel) (mat : Material) (m : ElasticPlasticModel)
    (charLen cDx cDy : ℚ) : ForensicPhysicsEngine :=
  let toolZ := -penetration + vibration
  let E1 := applyKernel E cx cy toolZ kernel mat m charLen
  if 1 / 2 < mat.brittleness ∧ 1 / 2 < |toolZ| then
    if lcgValue E1.rng < mat.brittleness * (1 / 10) then
      generateCrack (rngAdvance E1) cx cy cDx cDy (|toolZ| * 2) mat.brittleness
    else rngAdvance E1
  else E1

/-- The frame of C10: dimensions, resolution and both array lengths. -/
def engineDims (E : ForensicPhysicsEngine) : ℕ × ℕ × ℚ × ℕ × ℕ :=
  (E.width, E.height, E.resolution, E.data.length, E.plasticStrain.length)

/-- foldl preserves any observation that every step preserves. -/
theorem foldl_preserves {σ α β : Type*} (g : σ → β) (f : σ → α → σ)
    (hf : ∀ s a, g (f s a) = g s) :
    ∀ (l : List α) (s : σ), g (l.foldl f s) = g s := by
  intro l
  induction l with
  | nil => intro s; rfl
  | cons a as ih =>
    intro s
    rw [List.foldl_cons]
    rw [ih (f s a)]
    exact hf s a

theorem randomDraw_snd (E : ForensicPhysicsEngine) :
    (randomDraw E).2 = rngAdvance E := rfl

theorem randomDraw_fst (E : ForensicPhysicsEngine) :
    (randomDraw E).1 = lcgValue E.rng := rfl

theorem rngAdvance_width (E : ForensicPhysicsEngine) :
    (rngAdvance E).width = E.width := by unfold rngAdvance; rfl

theorem rngAdvance_height (E : ForensicPhysicsEngine) :
    (rngAdvance E).height = E.height := by unfold rngAdvance; rfl

theorem rngAdvance_resolution (E : ForensicPhysicsEngine) :
    (rngAdvance E).resolution = E.resolution := by unfold rngAdvance; rfl

theorem rngAdvance_data (E : ForensicPhysicsEngine) :
    (rngAdvance E).data = E.data := by unfold rngAdvance; rfl

theorem rngAdvance_plasticStrain (E : ForensicPhysicsEngine) :
    (rngAdvance E).plasticStrain = E.plasticStrain := by unfold rngAdvance; rfl

theorem rngAdvance_dims (E : ForensicPhysicsEngine) :
    engineDims (rngAdvance E) = engineDims E := by
  unfold engineDims
  rw [rngAdvance_width, rngAdvance_height, rngAdvance_resolution,
    rngAdvance_data, rngAdvance_plasticStrain]

theorem safeAdd_dims (E : ForensicPhysicsEngine) (x y : ℤ) (v : ℚ) :
    engineDims (safeAdd E x y v) = engineDims E := by
  simp only [safeAdd]
  split_ifs <;> simp [engineDims]

theorem addPileUpRing_dims (E : ForensicPhysicsEngine) (x y : ℤ) (w h : ℕ) (a : ℚ) :
    engineDims (addPileUpRing E x y w h a) = engineDims E := by
  unfold addPileUpRing
  exact foldl_preserves engineDims _
    (fun (s : ForensicPhysicsEngine) (c : ℤ × ℤ) => safeAdd_dims s c.1 c.2 a) _ E

theorem pileUpPhase_dims (E : ForensicPhysicsEngine) (startX startY : ℤ)
    (kw kh : ℕ) (fv : ℚ) :
    engineDims (pileUpPhase E startX startY kw kh fv) = engineDims E := by
  unfold pileUpPhase
  split
  · exact foldl_preserves engineDims _ (fun s i => addPileUpRing_dims _ _ _ _ _ _) _ E
  · rfl

theorem carveCell_dims (m : ElasticPlasticModel) (charLen cz : ℚ)
    (kernel : ToolKernel) (startX startY : ℤ) (st : ForensicPhysicsEngine × ℚ)
    (p : ℕ × ℕ) :
    engineDims (carveCell m charLen cz kernel startX startY st p).1 = engineDims st.1 := by
  simp only [carveCell]
  split_ifs <;> simp [engineDims]

theorem carvePass_dims (E : ForensicPhysicsEngine) (m : ElasticPlasticModel)
    (charLen cz : ℚ) (kernel : ToolKernel) (startX startY : ℤ) :
    engineDims (carvePass E m charLen cz kernel startX startY).1 = engineDims E := by
  unfold carvePass
  exact foldl_preserves (fun st => engineDims st.1) _
    (fun s p => carveCell_dims m charLen cz kernel startX startY s p) _ (E, 0)

theorem setCell_dims (e : ForensicPhysicsEngine) (idx : ℕ) (v : ℚ) :
    engineDims (setCell e idx v) = engineDims e := by
  simp [setCell, engineDims]

theorem roughenStep_dims (startX startY : ℤ) (amount : ℚ)
    (e : ForensicPhysicsEngine) (p : ℕ × ℕ) :
    engineDims (roughenStep startX startY amount e p) = engineDims e := by
  simp only [roughenStep]
  split_ifs
  · rw [setCell_dims, rngAdvance_dims]
  · rfl
  · rfl

theorem roughenCut_dims (E : ForensicPhysicsEngine) (startX startY : ℤ)
    (w h : ℕ) (amount : ℚ) :
    engineDims (roughenCut E startX startY w h amount) = engineDims E := by
  unfold roughenCut
  exact foldl_preserves engineDims _ (roughenStep_dims startX startY amount) _ E

theorem crackStep_dims (res cDx cDy : ℚ) (steps : ℕ)
    (st : ℚ × ℚ × ForensicPhysicsEngine) (i : ℕ) :
    engineDims (crackStep res cDx cDy steps st i).2.2 = engineDims st.2.2 := by
  simp only [crackStep]
  split_ifs
  · dsimp only
    rw [setCell_dims, rngAdvance_dims, rngAdvance_dims]
  · dsimp only
    rw [rngAdvance_dims, rngAdvance_dims]

theorem generateCrack_dims (E : ForensicPhysicsEngine)
    (cx cy cDx cDy energy brittleness : ℚ) :
    engineDims (generateCrack E cx cy cDx cDy energy brittleness) = engineDims E := by
  unfold generateCrack
  rw [foldl_preserves (fun st : ℚ × ℚ × ForensicPhysicsEngine => engineDims st.2.2)
    _ (crackStep_dims E.resolution cDx cDy _) _ _]
  rw [rngAdvance_dims, rngAdvance_dims]

theorem applyKernel_dims (E : ForensicPhysicsEngine) (cx cy cz : ℚ)
    (kernel : ToolKernel) (mat : Material) (m : ElasticPlasticModel) (charLen : ℚ) :
    engineDims (applyKernel E cx cy cz kernel mat m charLen) = engineDims E := by
  simp only [applyKernel]
  split_ifs
  · rw [roughenCut_dims, pileUpPhase_dims, carvePass_dims]
  · rw [pileUpPhase_dims, carvePass_dims]
  · rw [carvePass_dims]

theorem topographyStep_dims (noise : ℕ → ℕ → ℚ) (e : ForensicPhysicsEngine)
    (p : ℕ × ℕ) : engineDims (topographyStep noise e p) = engineDims e := by
  simp only [topographyStep]
  rw [setCell_dims, rngAdvance_dims]

theorem generateBaseTopography_dims (noise : ℕ → ℕ → ℚ) (E : ForensicPhysicsEngine) :
    engineDims (generateBaseTopography noise E) = engineDims E := by
  unfold generateBaseTopography
  exact foldl_preserves engineDims _ (topographyStep_dims noise) _ E

theorem resetRandom_dims (E : ForensicPhysicsEngine) :
    engineDims (resetRandom E) = engineDims E := by
  unfold resetRandom engineDims
  rfl

theorem reset_dims (noise : ℕ → ℕ → ℚ) (E : ForensicPhysicsEngine) :
    engineDims (ForensicPhysicsEngine.reset noise E) = engineDims E := by
  simp only [ForensicPhysicsEngine.reset]
  have h1 : ∀ F : ForensicPhysicsEngine,
      engineDims { F with plasticStrain := List.replicate F.plasticStrain.length 0 }
        = engineDims F := by
    intro F
    simp [engineDims]
  rw [h1, generateBaseTopography_dims]
  exact resetRandom_dims E

theorem simulateStep_dims (E : ForensicPhysicsEngine)
    (cx cy vibration penetration : ℚ) (kernel : ToolKernel) (mat : Material)
    (m : ElasticPlasticModel) (charLen cDx cDy : ℚ) :
    engineDims (simulateStep E cx cy vibration penetration kernel mat m charLen cDx cDy)
      = engineDims E := by
  simp only [simulateStep]
  split_ifs
  · rw [generateCrack_dims, rngAdvance_dims, applyKernel_dims]
  · rw [rngAdvance_dims, applyKernel_dims]
  · rw [applyKernel_dims]

/-- C10: no public operation changes the surface width, height, resolution,
or the length of the height-data and plasticStrain arrays, all fixed at
construction: reset preserves them, and so does every grid-mutating call
made while draining simulateCut (applyKernel with its pile-up and
roughening passes, generateCrack, and the whole per-iteration step).
createToolKernel is a pure function of the stored resolution and its own
arguments in this embedding and cannot touch the engine state at all. -/
theorem engine_frame_invariant (E : ForensicPhysicsEngine) (noise : ℕ → ℕ → ℚ)
    (cx cy cz vibration penetration charLen cDx cDy energy brittleness amount : ℚ)
    (kernel : ToolKernel) (mat : Material) (m : ElasticPlasticModel)
    (startX startY : ℤ) (w h : ℕ) :
    engineDims (ForensicPhysicsEngine.reset noise E) = engineDims E ∧
    engineDims (applyKernel E cx cy cz kernel mat m charLen) = engineDims E ∧
    engineDims (generateCrack E cx cy cDx cDy energy brittleness) = engineDims E ∧
    engineDims (roughenCut E startX startY w h amount) = engineDims E ∧
    engineDims (simulateStep E cx cy vibration penetration kernel mat m charLen cDx cDy)
      = engineDims E :=
  ⟨reset_dims noise E, applyKernel_dims E cx cy cz kernel mat m charLen,
    generateCrack_dims E cx cy cDx cDy energy brittleness,
    roughenCut_dims E startX startY w h amount,
    simulateStep_dims E cx cy vibration penetration kernel mat m charLen cDx cDy⟩

/-! ### Plastic-strain invariants (claim C9) -/

/-- getD on a zero-filled list is 0 at every index. -/
theorem getD_replicate_zero (n i : ℕ) : (List.replicate n (0 : ℚ)).getD i 0 = 0 := by
  rcases lt_or_ge i n with h | h
  · rw [List.getD_eq_getElem _ 0 (by simpa using h), List.getElem_replicate]
  · exact List.getD_eq_default _ 0 (by simpa using h)

/-- Raising one entry of a list (to a value at least the old entry) does
not lower any entry. -/
theorem getD_le_getD_set (l : List ℚ) (idx : ℕ) (v : ℚ) (h : l.getD idx 0 ≤ v)
    (i : ℕ) : l.getD i 0 ≤ (l.set idx v).getD i 0 := by
  by_cases hlen : idx < l.length
  · by_cases hi : i = idx
    · subst hi
      rw [List.getD_eq_getElem l 0 hlen] at h
      rw [List.getD_eq_getElem l 0 hlen,
        List.getD_eq_getElem _ 0 (by rw [List.length_set]; exact hlen),
        List.getElem_set_self]
      exact h
    · by_cases hil : i < l.length
      · rw [List.getD_eq_getElem l 0 hil,
          List.getD_eq_getElem _ 0 (by rw [List.length_set]; exact hil),
          List.getElem_set_ne (fun hh => hi hh.symm)]
      · rw [List.getD_eq_default l 0 (le_of_not_lt hil),
          List.getD_eq_default _ 0 (by rw [List.length_set]; exact le_of_not_lt hil)]
  · rw [List.set_eq_of_length_le (le_of_not_lt hlen)]

theorem setCell_plasticStrain (e : ForensicPhysicsEngine) (idx : ℕ) (v : ℚ) :
    (setCell e idx v).plasticStrain = e.plasticStrain := by
  unfold setCell
  rfl

theorem safeAdd_plasticStrain (E : ForensicPhysicsEngine) (x y : ℤ) (v : ℚ) :
    (safeAdd E x y v).plasticStrain = E.plasticStrain := by
  simp only [safeAdd]
  split_ifs <;> rfl

theorem addPileUpRing_plasticStrain (E : ForensicPhysicsEngine) (x y : ℤ)
    (w h : ℕ) (a : ℚ) :
    (addPileUpRing E x y w h a).plasticStrain = E.plasticStrain := by
  unfold addPileUpRing
  exact foldl_preserves ForensicPhysicsEngine.plasticStrain _
    (fun (s : ForensicPhysicsEngine) (c : ℤ × ℤ) => safeAdd_plasticStrain s c.1 c.2 a) _ E

theorem pileUpPhase_plasticStrain (E : ForensicPhysicsEngine) (startX startY : ℤ)
    (kw kh : ℕ) (fv : ℚ) :
    (pileUpPhase E startX startY kw kh fv).plasticStrain = E.plasticStrain := by
  unfold pileUpPhase
  split
  · exact foldl_preserves ForensicPhysicsEngine.plasticStrain _
      (fun s i => addPileUpRing_plasticStrain _ _ _ _ _ _) _ E
  · rfl

theorem roughenStep_plasticStrain (startX startY : ℤ) (amount : ℚ)
    (e : ForensicPhysicsEngine) (p : ℕ × ℕ) :
    (roughenStep startX startY amount e p).plasticStrain = e.plasticStrain := by
  simp only [roughenStep]
  split_ifs
  · rw [setCell_plasticStrain, rngAdvance_plasticStrain]
  · rfl
  · rfl

theorem roughenCut_plasticStrain (E : ForensicPhysicsEngine) (startX startY : ℤ)
    (w h : ℕ) (amount : ℚ) :
    (roughenCut E startX startY w h amount).plasticStrain = E.plasticStrain := by
  unfold roughenCut
  exact foldl_preserves ForensicPhysicsEngine.plasticStrain _
    (roughenStep_plasticStrain startX startY amount) _ E

/-- One carve cell never lowers any plasticStrain entry: the strain field
is only written when plasticStrainIncrement > 0, and then the written value
is the old entry plus that increment. -/
theorem carveCell_strain_le (m : ElasticPlasticModel) (charLen cz : ℚ)
    (kernel : ToolKernel) (startX startY : ℤ) (st : ForensicPhysicsEngine × ℚ)
    (p : ℕ × ℕ) (i : ℕ) :
    st.1.plasticStrain.getD i 0
      ≤ (carveCell m charLen cz kernel startX startY st p).1.plasticStrain.getD i 0 := by
  simp only [carveCell]
  split_ifs with h1 h2 h3 h4
  any_goals exact le_rfl
  all_goals dsimp only
  all_goals first
    | exact le_rfl
    | (apply getD_le_getD_set
       linarith)

theorem foldl_strain_le {α : Type*}
    (f : (ForensicPhysicsEngine × ℚ) → α → (ForensicPhysicsEngine × ℚ))
    (hf : ∀ s a i, s.1.plasticStrain.getD i 0 ≤ (f s a).1.plasticStrain.getD i 0) :
    ∀ (l : List α) (s : ForensicPhysicsEngine × ℚ) (i : ℕ),
      s.1.plasticStrain.getD i 0 ≤ (l.foldl f s).1.plasticStrain.getD i 0 := by
  intro l
  induction l with
  | nil => intro s i; exact le_rfl
  | cons a as ih => intro s i; exact le_trans (hf s a i) (ih (f s a) i)

theorem carvePass_strain_le (E : ForensicPhysicsEngine) (m : ElasticPlasticModel)
    (charLen cz : ℚ) (kernel : ToolKernel) (startX startY : ℤ) (i : ℕ) :
    E.plasticStrain.getD i 0
      ≤ (carvePass E m charLen cz kernel startX startY).1.plasticStrain.getD i 0 := by
  unfold carvePass
  exact foldl_strain_le _ (carveCell_strain_le m charLen cz kernel startX startY) _ (E, 0) i

theorem applyKernel_strain_le (E : ForensicPhysicsEngine) (cx cy cz : ℚ)
    (kernel : ToolKernel) (mat : Material) (m : ElasticPlasticModel)
    (charLen : ℚ) (i : ℕ) :
    E.plasticStrain.getD i 0
      ≤ (applyKernel E cx cy cz kernel mat m charLen).plasticStrain.getD i 0 := by
  simp only [applyKernel]
  split_ifs
  · rw [roughenCut_plasticStrain, pileUpPhase_plasticStrain]
    exact carvePass_strain_le E m charLen cz kernel _ _ i
  · rw [pileUpPhase_plasticStrain]
    exact carvePass_strain_le E m charLen cz kernel _ _ i
  · exact carvePass_strain_le E m charLen cz kernel _ _ i

theorem topographyStep_plasticStrain (noise : ℕ → ℕ → ℚ)
    (e : ForensicPhysicsEngine) (p : ℕ × ℕ) :
    (topographyStep noise e p).plasticStrain = e.plasticStrain := by
  simp only [topographyStep]
  rw [setCell_plasticStrain, rngAdvance_plasticStrain]

theorem generateBaseTopography_plasticStrain (noise : ℕ → ℕ → ℚ)
    (E : ForensicPhysicsEngine) :
    (generateBaseTopography noise E).plasticStrain = E.plasticStrain := by
  unfold generateBaseTopography
  exact foldl_preserves ForensicPhysicsEngine.plasticStrain _
    (topographyStep_plasticStrain noise) _ E

/-- C9: the plasticStrain field is all-zero after construction and after
reset(), and an applyKernel pass (the only writer during simulateCut) never
decreases any cell: it only adds the strictly positive
plasticStrainIncrement produced by the elastic-plastic model.  Hence every
entry stays non-negative at all times. -/
theorem plasticStrain_invariant (noise : ℕ → ℕ → ℚ)
    (widthMM heightMM resolution : ℚ) (seed : ℤ) (E : ForensicPhysicsEngine)
    (cx cy cz charLen : ℚ) (kernel : ToolKernel) (mat : Material)
    (m : ElasticPlasticModel) :
    (∀ i, (mkForensicPhysicsEngine noise widthMM heightMM resolution
      seed).plasticStrain.getD i 0 = 0) ∧
    (∀ i, (ForensicPhysicsEngine.reset noise E).plasticStrain.getD i 0 = 0) ∧
    (∀ i, E.plasticStrain.getD i 0
      ≤ (applyKernel E cx cy cz kernel mat m charLen).plasticStrain.getD i 0) ∧
    ((∀ i, 0 ≤ E.plasticStrain.getD i 0) →
      ∀ i, 0 ≤ (applyKernel E cx cy cz kernel mat m charLen).plasticStrain.getD i 0) := by
  refine ⟨?_, ?_, ?_, ?_⟩
  · intro i
    unfold mkForensicPhysicsEngine
    rw [generateBaseTopography_plasticStrain]
    exact getD_replicate_zero _ i
  · intro i
    simp only [ForensicPhysicsEngine.reset]
    exact getD_replicate_zero _ i
  · exact fun i => applyKernel_strain_le E cx cy cz kernel mat m charLen i
  · intro h0 i
    exact le_trans (h0 i) (applyKernel_strain_le E cx cy cz kernel mat m charLen i)

/-- A concrete 9x9 engine at resolution 1 with flat surface, used by the
concrete instantiations below. -/
def sampleEngine : ForensicPhysicsEngine :=
  { width := 9, height := 9, resolution := 1,
    data := List.replicate 81 0, plasticStrain := List.replicate 81 0,
    rng := 0, randomSeed := 0 }

/-- A concrete single-cell kernel with flat profile. -/
def sampleKernel : ToolKernel :=
  { profile := [0], width := 1, height := 1, centerX := 0, centerY := 0,
    sharpness := 1 / 2 }

/-- Witness for C9 at a concrete engine, kernel and the gold material,
discharging the non-negativity premise on the all-zero strain field. -/
theorem plasticStrain_invariant_witness :
    (∀ i, sampleEngine.plasticStrain.getD i 0
      ≤ (applyKernel sampleEngine 4 4 (-1) sampleKernel goldMat goldEP
          1).plasticStrain.getD i 0) ∧
    (∀ i, 0 ≤ (applyKernel sampleEngine 4 4 (-1) sampleKernel goldMat goldEP
          1).plasticStrain.getD i 0) :=
  ⟨(plasticStrain_invariant (fun _ _ => 0) 9 9 1 0 sampleEngine 4 4 (-1) 1
      sampleKernel goldMat goldEP).2.2.1,
    (plasticStrain_invariant (fun _ _ => 0) 9 9 1 0 sampleEngine 4 4 (-1) 1
      sampleKernel goldMat goldEP).2.2.2
      (fun i => by
        show (0 : ℚ) ≤ (List.replicate 81 (0 : ℚ)).getD i 0
        rw [getD_replicate_zero]) ⟩

/-! ### Pile-up volume accounting (claim C1) -/

/-- Total height over the grid: the volume ledger of the claim (cell area
is constant, so sums of heights compare exactly like volumes). -/
def gridSum (E : ForensicPhysicsEngine) : ℚ := E.data.sum

/-- F dominates E: same dimensions and pointwise no smaller heights. -/
def dataGE (F E : ForensicPhysicsEngine) : Prop :=
  F.width = E.width ∧ F.height = E.height ∧ F.data.length = E.data.length ∧
  ∀ i, E.data.getD i 0 ≤ F.data.getD i 0

/-- The claim's side conditions for exact conservation: every cell of every
ring lies inside the grid and passes the greater-than-negative-one-half
guard of safeAdd. -/
def ringRegionGood (E : ForensicPhysicsEngine) (startX startY : ℤ) (kw kh : ℕ) : Prop :=
  ∀ i, i < 4 → ∀ c ∈ ringCells (startX - ((i + 1 : ℕ) : ℤ))
      (startY - ((i + 1 : ℕ) : ℤ)) (kw + 2 * (i + 1)) (kh + 2 * (i + 1)),
    (0 ≤ c.1 ∧ c.1 < (E.width : ℤ) ∧ 0 ≤ c.2 ∧ c.2 < (E.height : ℤ)) ∧
    -(1 / 2) < E.data.getD (gridIdx E.width c.1 c.2) 0

theorem dataGE_refl (E : ForensicPhysicsEngine) : dataGE E E :=
  ⟨rfl, rfl, rfl, fun _ => le_rfl⟩

theorem dataGE_trans {A B C : ForensicPhysicsEngine}
    (h1 : dataGE B A) (h2 : dataGE C B) : dataGE C A :=
  ⟨h2.1.trans h1.1, h2.2.1.trans h1.2.1, h2.2.2.1.trans h1.2.2.1,
    fun i => le_trans (h1.2.2.2 i) (h2.2.2.2 i)⟩

/-- Adding v on top of entry n raises the list sum by exactly v. -/
theorem sum_set_getD_add (l : List ℚ) (n : ℕ) (v : ℚ) (h : n < l.length) :
    (l.set n (l.getD n 0 + v)).sum = l.sum + v := by
  rw [List.sum_set, if_pos h]
  conv_rhs => rw [← List.take_append_drop n l]
  rw [List.sum_append, List.drop_eq_getElem_cons h, List.sum_cons,
    List.getD_eq_getElem l 0 h]
  ring

/-- Setting another entry leaves a getD read unchanged. -/
theorem getD_set_ne (l : List ℚ) (n i : ℕ) (a : ℚ) (h : i ≠ n) :
    (l.set n a).getD i 0 = l.getD i 0 := by
  by_cases hil : i < l.length
  · rw [List.getD_eq_getElem _ 0 (by rw [List.length_set]; exact hil),
      List.getD_eq_getElem l 0 hil, List.getElem_set_ne (fun hh => h hh.symm)]
  · rw [List.getD_eq_default _ 0 (by rw [List.length_set]; exact le_of_not_lt hil),
      List.getD_eq_default l 0 (le_of_not_lt hil)]

/-- An in-bounds grid coordinate indexes inside a width * height array. -/
theorem gridIdx_lt (w h : ℕ) (x y : ℤ) (hx0 : 0 ≤ x) (hxw : x < (w : ℤ))
    (hy0 : 0 ≤ y) (hyh : y < (h : ℤ)) : gridIdx w x y < w * h := by
  unfold gridIdx
  have hy1 : y ≤ (h : ℤ) - 1 := by omega
  have hm : y * (w : ℤ) ≤ ((h : ℤ) - 1) * w :=
    mul_le_mul_of_nonneg_right hy1 (by positivity)
  have h1 : y * (w : ℤ) + x < ((w * h : ℕ) : ℤ) := by push_cast; nlinarith
  have h0 : (0 : ℤ) ≤ y * w + x :=
    add_nonneg (mul_nonneg hy0 (by positivity)) hx0
  set t : ℤ := y * w + x with ht
  set K : ℕ := w * h with hK
  omega

theorem safeAdd_sum_le (E : ForensicPhysicsEngine) (x y : ℤ) (v : ℚ)
    (hv : 0 ≤ v) : gridSum (safeAdd E x y v) ≤ gridSum E + v := by
  simp only [safeAdd, gridSum]
  split_ifs with h1 h2
  · by_cases hlen : gridIdx E.width x y < E.data.length
    · dsimp only
      rw [sum_set_getD_add _ _ _ hlen]
    · dsimp only
      rw [List.set_eq_of_length_le (le_of_not_lt hlen)]
      linarith
  · linarith
  · linarith

theorem safeAdd_sum_eq (E : ForensicPhysicsEngine) (x y : ℤ) (v : ℚ)
    (hin : 0 ≤ x ∧ x < (E.width : ℤ) ∧ 0 ≤ y ∧ y < (E.height : ℤ))
    (hguard : -(1 / 2) < E.data.getD (gridIdx E.width x y) 0)
    (hlen : gridIdx E.width x y < E.data.length) :
    gridSum (safeAdd E x y v) = gridSum E + v := by
  simp only [safeAdd, gridSum]
  rw [if_pos hin, if_pos hguard]
  exact sum_set_getD_add _ _ _ hlen

theorem safeAdd_dataGE (E : ForensicPhysicsEngine) (x y : ℤ) (v : ℚ)
    (hv : 0 ≤ v) : dataGE (safeAdd E x y v) E := by
  simp only [safeAdd]
  split_ifs with h1 h2
  · refine ⟨rfl, rfl, ?_, ?_⟩
    · exact List.length_set _ _ _
    · intro i
      exact getD_le_getD_set _ _ _ (le_add_of_nonneg_right hv) i
  · exact dataGE_refl E
  · exact dataGE_refl E

/-- Upper bound for a run of safeAdds: the sum rises by at most one amount
per visited cell (clipped or guarded cells contribute less). -/
theorem foldl_safeAdd_le (v : ℚ) (hv : 0 ≤ v) :
    ∀ (cells : List (ℤ × ℤ)) (E : ForensicPhysicsEngine),
      gridSum (cells.foldl (fun e c => safeAdd e c.1 c.2 v) E)
        ≤ gridSum E + (cells.length : ℚ) * v := by
  intro cells
  induction cells with
  | nil => intro E; simp
  | cons c cs ih =>
    intro E
    rw [List.foldl_cons]
    calc gridSum (cs.foldl (fun e c => safeAdd e c.1 c.2 v) (safeAdd E c.1 c.2 v))
        ≤ gridSum (safeAdd E c.1 c.2 v) + (cs.length : ℚ) * v := ih _
      _ ≤ (gridSum E + v) + (cs.length : ℚ) * v := by
          linarith [safeAdd_sum_le E c.1 c.2 v hv]
      _ = gridSum E + ((c :: cs).length : ℚ) * v := by
          simp only [List.length_cons]
          push_cast
          ring

/-- Exact accounting for a run of safeAdds over cells that are all inside
the reference grid and above the guard threshold there: every call adds
exactly v (monotonicity keeps the guards satisfied along the run). -/
theorem foldl_safeAdd_spec (E0 : ForensicPhysicsEngine)
    (hwf : E0.data.length = E0.width * E0.height) (v : ℚ) (hv : 0 ≤ v) :
    ∀ (cells : List (ℤ × ℤ)) (E : ForensicPhysicsEngine), dataGE E E0 →
      (∀ c ∈ cells,
        (0 ≤ c.1 ∧ c.1 < (E0.width : ℤ) ∧ 0 ≤ c.2 ∧ c.2 < (E0.height : ℤ)) ∧
        -(1 / 2) < E0.data.getD (gridIdx E0.width c.1 c.2) 0) →
      gridSum (cells.foldl (fun e c => safeAdd e c.1 c.2 v) E)
          = gridSum E + (cells.length : ℚ) * v ∧
        dataGE (cells.foldl (fun e c => safeAdd e c.1 c.2 v) E) E0 := by
  intro cells
  induction cells with
  | nil =>
    intro E hGE _
    exact ⟨by simp, hGE⟩
  | cons c cs ih =>
    intro E hGE hgood
    obtain ⟨hcin, hcguard⟩ := hgood c (List.mem_cons_self _ _)
    have hwE : E.width = E0.width := hGE.1
    have hhE : E.height = E0.height := hGE.2.1
    have hlE : E.data.length = E0.data.length := hGE.2.2.1
    have hinE : 0 ≤ c.1 ∧ c.1 < (E.width : ℤ) ∧ 0 ≤ c.2 ∧ c.2 < (E.height : ℤ) := by
      rw [hwE, hhE]; exact hcin
    have hidx : gridIdx E.width c.1 c.2 = gridIdx E0.width c.1 c.2 := by rw [hwE]
    have hlen : gridIdx E.width c.1 c.2 < E.data.length := by
      rw [hidx, hlE, hwf]
      exact gridIdx_lt E0.width E0.height c.1 c.2 hcin.1 hcin.2.1 hcin.2.2.1 hcin.2.2.2
    have hguardE : -(1 / 2) < E.data.getD (gridIdx E.width c.1 c.2) 0 := by
      rw [hidx]
      exact lt_of_lt_of_le hcguard (hGE.2.2.2 _)
    have hsum1 := safeAdd_sum_eq E c.1 c.2 v hinE hguardE hlen
    have hGE1 : dataGE (safeAdd E c.1 c.2 v) E0 :=
      dataGE_trans hGE (safeAdd_dataGE E c.1 c.2 v hv)
    rw [List.foldl_cons]
    obtain ⟨hsum2, hGE2⟩ := ih (safeAdd E c.1 c.2 v) hGE1
      (fun c' hc' => hgood c' (List.mem_cons_of_mem _ hc'))
    refine ⟨?_, hGE2⟩
    rw [hsum2, hsum1]
    simp only [List.length_cons]
    push_cast
    ring

/-- The ring visit list has 2w + 2(h-2) entries (the actual cell count of
the rectangle ring when h ≥ 2, against the approximate 2(W+H)+8r the
distribution divides by). -/
theorem ringCells_length (x y : ℤ) (w h : ℕ) :
    (ringCells x y w h).length = 2 * w + 2 * (h - 2) := by
  simp only [ringCells, List.length_append, List.length_flatMap, Function.comp_def]
  simp only [List.length_cons, List.length_nil, List.map_const', List.length_range,
    List.sum_replicate, smul_eq_mul]
  omega

/-- Every visited ring cell lies on the boundary of the ring rectangle. -/
theorem ringCells_mem_bounds (x y : ℤ) (w h : ℕ) (hw : 1 ≤ w) (hh : 1 ≤ h)
    (c : ℤ × ℤ) (hc : c ∈ ringCells x y w h) :
    (x ≤ c.1 ∧ c.1 ≤ x + w - 1 ∧ y ≤ c.2 ∧ c.2 ≤ y + h - 1) ∧
    (c.2 = y ∨ c.2 = y + h - 1 ∨ c.1 = x ∨ c.1 = x + w - 1) := by
  unfold ringCells at hc
  rw [List.mem_append] at hc
  rcases hc with hc | hc
  · rw [List.mem_flatMap] at hc
    obtain ⟨i, hi, hmem⟩ := hc
    rw [List.mem_range] at hi
    rcases List.mem_cons.mp hmem with rfl | hmem2
    · dsimp only
      exact ⟨⟨by omega, by omega, by omega, by omega⟩, Or.inl rfl⟩
    · rcases List.mem_singleton.mp hmem2 with rfl
      dsimp only
      exact ⟨⟨by omega, by omega, by omega, by omega⟩, Or.inr (Or.inl rfl)⟩
  · rw [List.mem_flatMap] at hc
    obtain ⟨j, hj, hmem⟩ := hc
    rw [List.mem_range] at hj
    have hj2 : j + 3 ≤ h := by omega
    rcases List.mem_cons.mp hmem with rfl | hmem2
    · dsimp only
      exact ⟨⟨by omega, by omega, by omega, by omega⟩,
        Or.inr (Or.inr (Or.inl rfl))⟩
    · rcases List.mem_singleton.mp hmem2 with rfl
      dsimp only
      exact ⟨⟨by omega, by omega, by omega, by omega⟩,
        Or.inr (Or.inr (Or.inr rfl))⟩

/-- Closed form of the pile-up normalization denominator. -/
theorem totalWeightedArea_eq (kw kh : ℕ) :
    totalWeightedArea kw kh = (50 * ((kw : ℚ) + kh) + 384) / 12 := by
  unfold totalWeightedArea
  rw [show List.range 4 = [0, 1, 2, 3] from rfl]
  simp only [List.map_cons, List.map_nil, List.sum_cons, List.sum_nil]
  push_cast
  ring

theorem totalWeightedArea_pos (kw kh : ℕ) : 0 < totalWeightedArea kw kh := by
  rw [totalWeightedArea_eq]
  positivity

/-- One ring of the pile-up distribution, upper bound form. -/
theorem addPileUpRing_sum_le (F : ForensicPhysicsEngine) (x y : ℤ) (w h : ℕ)
    (a : ℚ) (ha : 0 ≤ a) :
    gridSum (addPileUpRing F x y w h a)
      ≤ gridSum F + ((ringCells x y w h).length : ℚ) * a := by
  unfold addPileUpRing
  exact foldl_safeAdd_le a ha _ F

/-- One ring of the pile-up distribution, exact form over good cells. -/
theorem addPileUpRing_sum_eq (E0 : ForensicPhysicsEngine)
    (hwf : E0.data.length = E0.width * E0.height)
    (F : ForensicPhysicsEngine) (x y : ℤ) (w h : ℕ) (a : ℚ) (ha : 0 ≤ a)
    (hGE : dataGE F E0)
    (hgood : ∀ c ∈ ringCells x y w h,
      (0 ≤ c.1 ∧ c.1 < (E0.width : ℤ) ∧ 0 ≤ c.2 ∧ c.2 < (E0.height : ℤ)) ∧
      -(1 / 2) < E0.data.getD (gridIdx E0.width c.1 c.2) 0) :
    gridSum (addPileUpRing F x y w h a)
        = gridSum F + ((ringCells x y w h).length : ℚ) * a ∧
      dataGE (addPileUpRing F x y w h a) E0 := by
  unfold addPileUpRing
  exact foldl_safeAdd_spec E0 hwf a ha _ F hGE hgood

/-- Exact accounting over any run of rings with indices below 4, relative
to the post-carve reference state E0: each ring adds exactly its cell count
times its per-cell amount, and the surface keeps dominating E0. -/
theorem ringFold_spec (E0 : ForensicPhysicsEngine)
    (hwf : E0.data.length = E0.width * E0.height) (startX startY : ℤ)
    (kw kh : ℕ) (fv : ℚ) (hfv : 0 ≤ fv)
    (hgood : ringRegionGood E0 startX startY kw kh) :
    ∀ (l : List ℕ), (∀ i ∈ l, i < 4) → ∀ F, dataGE F E0 →
      gridSum (l.foldl (fun e i =>
          addPileUpRing e (startX - ((i + 1 : ℕ) : ℤ)) (startY - ((i + 1 : ℕ) : ℤ))
            (kw + 2 * (i + 1)) (kh + 2 * (i + 1))
            (fv * (1 / ((i : ℚ) + 1)) / totalWeightedArea kw kh)) F)
          = gridSum F + (l.map (fun i =>
            ((ringCells (startX - ((i + 1 : ℕ) : ℤ)) (startY - ((i + 1 : ℕ) : ℤ))
              (kw + 2 * (i + 1)) (kh + 2 * (i + 1))).length : ℚ)
              * (fv * (1 / ((i : ℚ) + 1)) / totalWeightedArea kw kh))).sum ∧
        dataGE (l.foldl (fun e i =>
          addPileUpRing e (startX - ((i + 1 : ℕ) : ℤ)) (startY - ((i + 1 : ℕ) : ℤ))
            (kw + 2 * (i + 1)) (kh + 2 * (i + 1))
            (fv * (1 / ((i : ℚ) + 1)) / totalWeightedArea kw kh)) F) E0 := by
  intro l
  induction l with
  | nil =>
    intro _ F hGE
    exact ⟨by simp, hGE⟩
  | cons i is ih =>
    intro hmem F hGE
    have hi4 : i < 4 := hmem i (List.mem_cons_self _ _)
    have hamt : 0 ≤ fv * (1 / ((i : ℚ) + 1)) / totalWeightedArea kw kh := by
      apply div_nonneg _ (totalWeightedArea_pos kw kh).le
      apply mul_nonneg hfv
      positivity
    obtain ⟨hs, hg⟩ := addPileUpRing_sum_eq E0 hwf F
      (startX - ((i + 1 : ℕ) : ℤ)) (startY - ((i + 1 : ℕ) : ℤ))
      (kw + 2 * (i + 1)) (kh + 2 * (i + 1)) _ hamt hGE (hgood i hi4)
    rw [List.foldl_cons]
    obtain ⟨hs2, hg2⟩ := ih (fun j hj => hmem j (List.mem_cons_of_mem _ hj)) _ hg
    refine ⟨?_, hg2⟩
    rw [hs2, hs, List.map_cons, List.sum_cons]
    ring

/-- Upper bound over any run of rings, with no side conditions. -/
theorem ringFold_le (startX startY : ℤ) (kw kh : ℕ) (fv : ℚ) (hfv : 0 ≤ fv) :
    ∀ (l : List ℕ) (F : ForensicPhysicsEngine),
      gridSum (l.foldl (fun e i =>
          addPileUpRing e (startX - ((i + 1 : ℕ) : ℤ)) (startY - ((i + 1 : ℕ) : ℤ))
            (kw + 2 * (i + 1)) (kh + 2 * (i + 1))
            (fv * (1 / ((i : ℚ) + 1)) / totalWeightedArea kw kh)) F)
        ≤ gridSum F + (l.map (fun i =>
            ((ringCells (startX - ((i + 1 : ℕ) : ℤ)) (startY - ((i + 1 : ℕ) : ℤ))
              (kw + 2 * (i + 1)) (kh + 2 * (i + 1))).length : ℚ)
              * (fv * (1 / ((i : ℚ) + 1)) / totalWeightedArea kw kh))).sum := by
  intro l
  induction l with
  | nil => intro F; simp
  | cons i is ih =>
    intro F
    have hamt : 0 ≤ fv * (1 / ((i : ℚ) + 1)) / totalWeightedArea kw kh := by
      apply div_nonneg _ (totalWeightedArea_pos kw kh).le
      apply mul_nonneg hfv
      positivity
    have h1 := addPileUpRing_sum_le F (startX - ((i + 1 : ℕ) : ℤ))
      (startY - ((i + 1 : ℕ) : ℤ)) (kw + 2 * (i + 1)) (kh + 2 * (i + 1)) _ hamt
    rw [List.foldl_cons, List.map_cons, List.sum_cons]
    have h2 := ih (addPileUpRing F (startX - ((i + 1 : ℕ) : ℤ))
      (startY - ((i + 1 : ℕ) : ℤ)) (kw + 2 * (i + 1)) (kh + 2 * (i + 1))
      (fv * (1 / ((i : ℚ) + 1)) / totalWeightedArea kw kh))
    linarith

/-- The four ring contributions sum to flowVolume times the exact ratio
(50(W+H)+284) / (50(W+H)+384): the numerator counts the actual ring cells
2(W+H)+8r-4, the denominator the approximate 2(W+H)+8r the source divides
by, weighted by 1/r and put over the common denominator 12. -/
theorem ringSum_value (startX startY : ℤ) (kw kh : ℕ) (fv : ℚ) :
    ((List.range 4).map (fun i =>
      ((ringCells (startX - ((i + 1 : ℕ) : ℤ)) (startY - ((i + 1 : ℕ) : ℤ))
        (kw + 2 * (i + 1)) (kh + 2 * (i + 1))).length : ℚ)
        * (fv * (1 / ((i : ℚ) + 1)) / totalWeightedArea kw kh))).sum
      = fv * ((50 * ((kw : ℚ) + kh) + 284) / (50 * ((kw : ℚ) + kh) + 384)) := by
  rw [show List.range 4 = [0, 1, 2, 3] from rfl]
  simp only [List.map_cons, List.map_nil, List.sum_cons, List.sum_nil]
  rw [ringCells_length, ringCells_length, ringCells_length, ringCells_length]
  rw [totalWeightedArea_eq]
  have h1 : kh + 2 * (0 + 1) - 2 = kh := by omega
  have h2 : kh + 2 * (1 + 1) - 2 = kh + 2 := by omega
  have h3 : kh + 2 * (2 + 1) - 2 = kh + 4 := by omega
  have h4 : kh + 2 * (3 + 1) - 2 = kh + 6 := by omega
  rw [h1, h2, h3, h4]
  have hden : (50 * ((kw : ℚ) + kh) + 384) ≠ 0 := by positivity
  push_cast
  field_simp
  ring

/-- Pile-up conservation bound: the total height added by the pile-up pass
never exceeds flowVolume. -/
theorem pileUpPhase_sum_le (E : ForensicPhysicsEngine) (startX startY : ℤ)
    (kw kh : ℕ) (fv : ℚ) (hfv : 0 ≤ fv) :
    gridSum (pileUpPhase E startX startY kw kh fv) ≤ gridSum E + fv := by
  unfold pileUpPhase
  split_ifs with hpos
  · have hden : (0 : ℚ) < 50 * ((kw : ℚ) + kh) + 384 := by positivity
    have hle : (50 * ((kw : ℚ) + kh) + 284) / (50 * ((kw : ℚ) + kh) + 384) ≤ 1 := by
      rw [div_le_one hden]
      linarith
    have h1 := ringFold_le startX startY kw kh fv hfv (List.range 4) E
    rw [ringSum_value] at h1
    nlinarith
  · linarith

/-- Pile-up exact total: when every ring cell is inside the grid and above
the safeAdd guard, the pass adds exactly flowVolume times the ratio
(50(W+H)+284) / (50(W+H)+384) — strictly less than flowVolume whenever
flowVolume is positive, because the code divides by the approximate ring
perimeter 2(W+H)+8r while only touching 2(W+H)+8r-4 cells per ring. -/
theorem pileUpPhase_sum_eq (E : ForensicPhysicsEngine) (startX startY : ℤ)
    (kw kh : ℕ) (fv : ℚ) (hwf : E.data.length = E.width * E.height)
    (hfv : 0 ≤ fv) (hgood : ringRegionGood E startX startY kw kh) :
    gridSum (pileUpPhase E startX startY kw kh fv)
      = gridSum E + fv * ((50 * ((kw : ℚ) + kh) + 284) / (50 * ((kw : ℚ) + kh) + 384)) := by
  unfold pileUpPhase
  split_ifs with hpos
  · obtain ⟨hsum, _⟩ := ringFold_spec E hwf startX startY kw kh fv hfv hgood
      (List.range 4) (fun i hi => List.mem_range.mp hi) E (dataGE_refl E)
    rw [hsum, ringSum_value]
  · have h0 : fv = 0 := le_antisymm (not_lt.mp hpos) hfv
    rw [h0]
    ring

/-- When displacedVolume is positive and the chip ratio does not exceed
one half, applyKernel is the carve pass followed by the pile-up pass (the
roughen branch is not taken). -/
theorem applyKernel_eq_pileUpPhase (E : ForensicPhysicsEngine) (cx cy cz : ℚ)
    (kernel : ToolKernel) (mat : Material) (m : ElasticPlasticModel)
    (charLen : ℚ) (startX startY : ℤ)
    (hsx : startX = ⌊cx * E.resolution⌋ - kernel.centerX)
    (hsy : startY = ⌊cy * E.resolution⌋ - kernel.centerY)
    (hdv : 0 < (carvePass E m charLen cz kernel startX startY).2)
    (hhalf : kernel.sharpness * mat.brittleness ≤ 1 / 2) :
    applyKernel E cx cy cz kernel mat m charLen
      = pileUpPhase (carvePass E m charLen cz kernel startX startY).1 startX startY
          kernel.width kernel.height
          ((carvePass E m charLen cz kernel startX startY).2 * mat.flow
            * (1 - kernel.sharpness * mat.brittleness)) := by
  simp only [applyKernel]
  rw [← hsx, ← hsy, if_pos hdv, if_neg (not_lt.mpr hhalf)]

/-- C1: pile-up volume accounting for one applyKernel step with positive
displacedVolume.  (a) The total height added by the pile-up pass is at
most displacedVolume * mat.flow.  (b) When the chip ratio is at most 1/2,
applyKernel is exactly carve followed by pile-up.  (c) AMENDED exactness:
when chipRatio = 0 and no ring cell is clipped by the grid bounds (and
none hits the -0.5 safeAdd guard), the total added height is NOT
flowVolume but flowVolume * (50(W+H)+284)/(50(W+H)+384) — strictly less
than flowVolume whenever flowVolume > 0 — because totalWeightedArea counts
2(W+H)+8r pixels per ring while addPileUpRing only visits 2(W+H)+8r-4. -/
theorem applyKernel_pileup_volume (E : ForensicPhysicsEngine) (cx cy cz : ℚ)
    (kernel : ToolKernel) (mat : Material) (m : ElasticPlasticModel)
    (charLen : ℚ) (startX startY : ℤ)
    (hsx : startX = ⌊cx * E.resolution⌋ - kernel.centerX)
    (hsy : startY = ⌊cy * E.resolution⌋ - kernel.centerY)
    (c : ForensicPhysicsEngine × ℚ)
    (hc : c = carvePass E m charLen cz kernel startX startY)
    (hdv : 0 < c.2) (hflow : 0 ≤ mat.flow)
    (chip fv : ℚ)
    (hchipdef : chip = kernel.sharpness * mat.brittleness)
    (hfv : fv = c.2 * mat.flow * (1 - chip))
    (hchip0 : 0 ≤ chip) (hchip1 : chip ≤ 1) :
    gridSum (pileUpPhase c.1 startX startY kernel.width kernel.height fv)
        ≤ gridSum c.1 + c.2 * mat.flow ∧
    (chip ≤ 1 / 2 →
      applyKernel E cx cy cz kernel mat m charLen
        = pileUpPhase c.1 startX startY kernel.width kernel.height fv) ∧
    (chip = 0 → E.data.length = E.width * E.height →
      ringRegionGood c.1 startX startY kernel.width kernel.height →
      gridSum (pileUpPhase c.1 startX startY kernel.width kernel.height fv)
          = gridSum c.1 + (c.2 * mat.flow) *
            ((50 * ((kernel.width : ℚ) + kernel.height) + 284)
              / (50 * ((kernel.width : ℚ) + kernel.height) + 384)) ∧
      (0 < c.2 * mat.flow →
        gridSum (pileUpPhase c.1 startX startY kernel.width kernel.height fv)
          < gridSum c.1 + c.2 * mat.flow)) := by
  have hcf : 0 ≤ c.2 * mat.flow := mul_nonneg hdv.le hflow
  have hfv0 : 0 ≤ fv := by
    rw [hfv]
    exact mul_nonneg hcf (by linarith)
  refine ⟨?_, ?_, ?_⟩
  · have h1 := pileUpPhase_sum_le c.1 startX startY kernel.width kernel.height fv hfv0
    have h2 : fv ≤ c.2 * mat.flow := by
      rw [hfv]
      have h4 := mul_le_mul_of_nonneg_left (show (1 : ℚ) - chip ≤ 1 by linarith) hcf
      linarith [h4]
    linarith
  · intro hhalf
    rw [applyKernel_eq_pileUpPhase E cx cy cz kernel mat m charLen startX startY
      hsx hsy (hc ▸ hdv) (hchipdef ▸ hhalf)]
    rw [← hc, ← hchipdef, ← hfv]
  · intro hchipz hwfE hgood
    have hd := carvePass_dims E m charLen cz kernel startX startY
    rw [← hc] at hd
    simp only [engineDims, Prod.mk.injEq] at hd
    obtain ⟨hW, hH, _, hL, _⟩ := hd
    have hwf1 : c.1.data.length = c.1.width * c.1.height := by
      rw [hW, hH, hL]
      exact hwfE
    have hfveq : fv = c.2 * mat.flow := by
      rw [hfv, hchipz]
      ring
    have heq := pileUpPhase_sum_eq c.1 startX startY kernel.width kernel.height fv
      hwf1 hfv0 hgood
    constructor
    · rw [heq, hfveq]
    · intro hpos
      rw [heq, hfveq]
      have hden : (0 : ℚ) < 50 * ((kernel.width : ℚ) + kernel.height) + 384 := by
        positivity
      have hlt : (50 * ((kernel.width : ℚ) + kernel.height) + 284)
          / (50 * ((kernel.width : ℚ) + kernel.height) + 384) < 1 := by
        rw [div_lt_one hden]
        linarith
      nlinarith

/-- The gold model at penetration 1, characteristic length 1, prior strain
0: yield strain 70/79000 = 7/7900, so the permanent fraction is
1 - 7/7900 = 7893/7900. -/
theorem computePermanentDepth_gold_one :
    goldEP.computePermanentDepth 1 1 0 = ⟨7893 / 7900, 7893 / 7900, 7 / 7900, 1⟩ := by
  simp only [ElasticPlasticModel.computePermanentDepth, goldEP, mkElasticPlasticModel]
  norm_num

/-- The engine state after the carve pass of the concrete sample step: the
single kernel cell carves 7893/7900 out of cell (4,4) (index 40). -/
def carvedSample : ForensicPhysicsEngine :=
  { width := 9, height := 9, resolution := 1,
    data := (List.replicate 81 (0 : ℚ)).set 40 (0 - 7893 / 7900),
    plasticStrain := (List.replicate 81 (0 : ℚ)).set 40 (0 + 7893 / 7900),
    rng := 0, randomSeed := 0 }

/-- Concrete evaluation of the carve pass on the sample step: the 1x1
kernel at cz = -1 on the flat 9x9 grid displaces volume 7893/7900. -/
theorem carvePass_sample :
    carvePass sampleEngine goldEP 1 (-1) sampleKernel 4 4
      = (carvedSample, 7893 / 7900) := by
  unfold carvePass
  rw [show kernelPositions sampleKernel = [((0 : ℕ), (0 : ℕ))] from rfl,
    List.foldl_cons, List.foldl_nil]
  simp only [carveCell, sampleEngine, sampleKernel]
  have hth : (-1 : ℚ) + [(0 : ℚ)].getD (0 * 1 + 0) 0 = -1 := by norm_num
  rw [hth]
  rw [getD_replicate_zero]
  rw [show (0 : ℚ) - -1 = 1 by norm_num]
  rw [computePermanentDepth_gold_one]
  norm_num [carvedSample, gridIdx]
  exact ⟨rfl, rfl⟩

/-- All four rings around the sample cut lie strictly inside the 9x9 grid
and every ring cell still has height 0 > -1/2 after the carve (only the
center cell (4,4) was lowered, and it is on no ring). -/
theorem ringRegionGood_sample : ringRegionGood carvedSample 4 4 1 1 := by
  intro i hi c hc
  have hw : 1 ≤ 1 + 2 * (i + 1) := by omega
  obtain ⟨⟨h1, h2, h3, h4⟩, hedge⟩ := ringCells_mem_bounds
    (4 - ((i + 1 : ℕ) : ℤ)) (4 - ((i + 1 : ℕ) : ℤ))
    (1 + 2 * (i + 1)) (1 + 2 * (i + 1)) hw hw c hc
  have hc1a : (0 : ℤ) ≤ c.1 := by push_cast at h1 h2; omega
  have hc1b : c.1 < ((9 : ℕ) : ℤ) := by push_cast at h1 h2 ⊢; omega
  have hc2a : (0 : ℤ) ≤ c.2 := by push_cast at h3 h4; omega
  have hc2b : c.2 < ((9 : ℕ) : ℤ) := by push_cast at h3 h4 ⊢; omega
  have hne : gridIdx 9 c.1 c.2 ≠ 40 := by
    unfold gridIdx
    intro heq
    rcases hedge with he | he | he | he <;>
      (push_cast at h1 h2 h3 h4 he; omega)
  refine ⟨⟨hc1a, hc1b, hc2a, hc2b⟩, ?_⟩
  show -(1 / 2 : ℚ) < ((List.replicate 81 (0 : ℚ)).set 40 (0 - 7893 / 7900)).getD
    (gridIdx 9 c.1 c.2) 0
  rw [getD_set_ne _ _ _ _ hne, getD_replicate_zero]
  norm_num

/-- C1 counterexample: the concrete sample step (flat 9x9 grid, 1x1
kernel at depth 1, gold, so chipRatio = 0, displacedVolume = 7893/7900 >
0, and every ring cell unclipped and unguarded) where the surface total
after applyKernel is NOT the carved total plus displacedVolume * flow:
the pile-up pass only returns 96/121 of the flowed volume. -/
theorem applyKernel_pileup_volume_cex :
    0 < (carvePass sampleEngine goldEP 1 (-1) sampleKernel 4 4).2 ∧
    sampleKernel.sharpness * goldMat.brittleness = 0 ∧
    ringRegionGood (carvePass sampleEngine goldEP 1 (-1) sampleKernel 4 4).1 4 4
      sampleKernel.width sampleKernel.height ∧
    gridSum (applyKernel sampleEngine 4 4 (-1) sampleKernel goldMat goldEP 1)
      ≠ gridSum (carvePass sampleEngine goldEP 1 (-1) sampleKernel 4 4).1
        + (carvePass sampleEngine goldEP 1 (-1) sampleKernel 4 4).2 * goldMat.flow := by
  have hchip : sampleKernel.sharpness * goldMat.brittleness = 0 := by
    norm_num [sampleKernel, goldMat]
  have hdv : 0 < (carvePass sampleEngine goldEP 1 (-1) sampleKernel 4 4).2 := by
    rw [carvePass_sample]
    norm_num
  have hgood : ringRegionGood (carvePass sampleEngine goldEP 1 (-1) sampleKernel 4 4).1
      4 4 sampleKernel.width sampleKernel.height := by
    show ringRegionGood (carvePass sampleEngine goldEP 1 (-1) sampleKernel 4 4).1 4 4 1 1
    rw [carvePass_sample]
    exact ringRegionGood_sample
  refine ⟨hdv, hchip, hgood, ?_⟩
  rw [applyKernel_eq_pileUpPhase sampleEngine 4 4 (-1) sampleKernel goldMat goldEP 1
    4 4 (by norm_num [sampleEngine, sampleKernel]) (by norm_num [sampleEngine, sampleKernel])
    hdv (by rw [hchip]; norm_num)]
  have hwfc : (carvePass sampleEngine goldEP 1 (-1) sampleKernel 4 4).1.data.length
      = (carvePass sampleEngine goldEP 1 (-1) sampleKernel 4 4).1.width
        * (carvePass sampleEngine goldEP 1 (-1) sampleKernel 4 4).1.height := by
    rw [carvePass_sample]
    simp [carvedSample]
  have hfv0 : 0 ≤ (carvePass sampleEngine goldEP 1 (-1) sampleKernel 4 4).2
      * goldMat.flow * (1 - sampleKernel.sharpness * goldMat.brittleness) := by
    rw [carvePass_sample, hchip]
    norm_num [goldMat]
  rw [pileUpPhase_sum_eq _ 4 4 sampleKernel.width sampleKernel.height _ hwfc hfv0 hgood]
  rw [carvePass_sample, hchip]
  simp only [ne_eq, add_right_inj]
  norm_num [sampleKernel, goldMat]

/-- Witness for C1 at the concrete sample step, discharging every premise
of the claim theorem (positive displaced volume via the concrete carve
evaluation) and keeping its bound conclusion. -/
theorem applyKernel_pileup_volume_witness :
    gridSum (pileUpPhase (carvePass sampleEngine goldEP 1 (-1) sampleKernel 4 4).1 4 4
        sampleKernel.width sampleKernel.height
        ((carvePass sampleEngine goldEP 1 (-1) sampleKernel 4 4).2 * goldMat.flow
          * (1 - 0)))
      ≤ gridSum (carvePass sampleEngine goldEP 1 (-1) sampleKernel 4 4).1
        + (carvePass sampleEngine goldEP 1 (-1) sampleKernel 4 4).2 * goldMat.flow :=
  (applyKernel_pileup_volume sampleEngine 4 4 (-1) sampleKernel goldMat goldEP 1
    4 4 (by norm_num [sampleEngine, sampleKernel]) (by norm_num [sampleEngine, sampleKernel])
    (carvePass sampleEngine goldEP 1 (-1) sampleKernel 4 4) rfl
    (by rw [carvePass_sample]; norm_num)
    (by norm_num [goldMat])
    0 _ (by norm_num [sampleKernel, goldMat]) rfl le_rfl zero_le_one).1

end ForensicTraces
